import Mathlib

/-!
# go-bytebuf: a verification development of `util.go`

A shallow embedding of the capacity, cursor, search, iteration and
length-prefixed string operations of the growable byte buffer, followed by the
properties proved about them.

Conventions of the embedding.

* A Go `byte` is a `Fin 256`; a `[]byte` is a `List Byte` (every slice of the
  program has its length equal to its capacity); a Go `string` is the list of
  its bytes, so that `[]byte(str)` and `string(buffer)` are the identity.
* Go's `int` is the 64-bit two's-complement integer: values are `Int`s and
  every arithmetic operation of the program is wrapped by `wrapInt`.
* A method with a pointer receiver becomes a function from the state before the
  call to the state after it; a method that returns a value yields the pair of
  the state after the call and the value.  A run-time panic (integer division
  by zero, `make` with a negative length, a slice expression or an index out of
  range) is the result `none`.
* The visitor of `ForEachByte` is a function of the byte it is given; the
  embedding records the indices it is called on.  The functions `bytes.Index`
  and `bytes.Equal` of the standard library are given by their documentation.
* The package variable `ChunkSize` is read at every call and may be reassigned
  by users, so the functions take its current value as the argument
  `chunkSize`; `ChunkSize` below is its initial value.
* Allocation is assumed to succeed for every length between `0` and `MaxInt`.
-/

namespace bytebuf

/-! ## Machine integers and slices -/

/-- A Go `byte`. -/
abbrev Byte := Fin 256

/-- The conversion `byte(n)` of a non-negative integer: the low eight bits. -/
def byteOf (n : Nat) : Byte := ⟨n % 256, Nat.mod_lt n (by decide)⟩

/-- The largest value of Go's `int` (64-bit target). -/
def MaxInt : Int := 9223372036854775807

/-- The smallest value of Go's `int` (64-bit target). -/
def MinInt : Int := -9223372036854775808

/-- The value `math.MaxUint8`. -/
def MaxUint8 : Int := 255

/-- The value `math.MaxUint16`. -/
def MaxUint16 : Int := 65535

/-- The value `math.MaxUint32`. -/
def MaxUint32 : Int := 4294967295

/-- Two's-complement wrap-around of an exact result into the range of `int`. -/
def wrapInt (x : Int) : Int :=
  (x + 9223372036854775808) % 18446744073709551616 - 9223372036854775808

/-- Go's `a + b` on `int`. -/
def addInt (a b : Int) : Int := wrapInt (a + b)

/-- Go's `a - b` on `int`. -/
def subInt (a b : Int) : Int := wrapInt (a - b)

/-- Go's `a * b` on `int`. -/
def mulInt (a b : Int) : Int := wrapInt (a * b)

/-- Go's `a / b` on `int`: truncated towards zero, a panic when `b = 0`. -/
def divInt (a b : Int) : Option Int :=
  if b = 0 then none else some (wrapInt (Int.tdiv a b))

/-- The call `make([]byte, n)`: `n` zero bytes, a panic when `n` is negative. -/
def make (n : Int) : Option (List Byte) :=
  if n < 0 then none else some (List.replicate n.toNat 0)

/-- The builtin `copy(dst, src)`, as the contents of `dst` after the call: the
first `min(len(dst), len(src))` bytes come from `src`, the rest stay. -/
def copy (dst src : List Byte) : List Byte :=
  src.take dst.length ++ dst.drop src.length

/-- The slice expression `s[lo:]`: a panic unless `0 <= lo <= len(s)`. -/
def sliceFrom (s : List Byte) (lo : Int) : Option (List Byte) :=
  if 0 ≤ lo ∧ lo ≤ (s.length : Int) then some (s.drop lo.toNat) else none

/-! ## The buffer -/

/-- The initial value of the package variable `ChunkSize`. -/
def ChunkSize : Int := 1024

/-- The struct `ByteBuf`, with the fields of the composite literal in `Copy`. -/
structure ByteBuf where
  buf : List Byte
  capacity : Int
  readerIndex : Int
  readerMarker : Int
  writerIndex : Int
  writerMarker : Int
  deriving DecidableEq

/-- The capacity formula of `EnsureCapacity` in exact integers:
`((size-1)/ChunkSize + 1) * ChunkSize` with Go's truncating division. -/
def roundedCapacity (chunkSize size : Int) : Int :=
  (Int.tdiv (size - 1) chunkSize + 1) * chunkSize

/-- The method `EnsureCapacity` (util.go, lines 46-57). -/
def ByteBuf.EnsureCapacity (chunkSize : Int) (b : ByteBuf) (size : Int) : Option ByteBuf :=
  if size ≤ b.capacity then some b
  else
    match divInt (subInt size 1) chunkSize with
    | none => none
    | some q =>
      let capacity := mulInt (addInt q 1) chunkSize
      match make capacity with
      | none => none
      | some newBuf => some { b with buf := copy newBuf b.buf, capacity := capacity }

/-- The method `EnsureWritable` (util.go, lines 31-44). -/
def ByteBuf.EnsureWritable (chunkSize : Int) (b : ByteBuf) (size : Int) : Option ByteBuf :=
  b.EnsureCapacity chunkSize (addInt b.writerIndex size)

/-- The method `DiscardReadBytes` (util.go, lines 80-85). -/
def ByteBuf.DiscardReadBytes (b : ByteBuf) : Option ByteBuf :=
  match sliceFrom b.buf b.readerIndex with
  | none => none
  | some s =>
    some { b with buf := s, writerIndex := subInt b.writerIndex b.readerIndex, readerIndex := 0 }

/-- The zero value `ByteBuf{}` of the struct: nil storage, every field 0. -/
def ByteBuf.zero : ByteBuf :=
  { buf := [], capacity := 0, readerIndex := 0, readerMarker := 0,
    writerIndex := 0, writerMarker := 0 }

/-! ## Cursor, search, equality, duplication and iteration

A method that returns a value yields the pair of the state after the call and
the value; `Equal`, which only compares, yields its value. -/

/-- The slice expression `s[lo:hi]`: a panic unless `0 <= lo <= hi <= cap(s)`. -/
def sliceRange (s : List Byte) (lo hi : Int) : Option (List Byte) :=
  if 0 ≤ lo ∧ lo ≤ hi ∧ hi ≤ (s.length : Int) then
    some ((s.drop lo.toNat).take (hi - lo).toNat)
  else none

/-- The index expression `s[i]`: a panic unless `0 <= i < len(s)`. -/
def indexAt (s : List Byte) (i : Int) : Option Byte :=
  if 0 ≤ i ∧ i < (s.length : Int) then s[i.toNat]? else none

/-- The search of the standard library's `bytes.Index(s, sep)`, with `i` the
offset of `s` in the slice searched: the offset of the first position at which
`sep` starts, or `-1`. -/
def bytesIndexFrom (sep : List Byte) : List Byte → Nat → Int
  | [], i => if sep = [] then (i : Int) else -1
  | x :: xs, i =>
    if (x :: xs).take sep.length = sep then (i : Int) else bytesIndexFrom sep xs (i + 1)

/-- The standard library's `bytes.Index(s, sep)`: "the index of the first
instance of `sep` in `s`, or -1 if `sep` is not present in `s`". -/
def bytesIndex (s sep : List Byte) : Int := bytesIndexFrom sep s 0

/-- The standard library's `bytes.Equal(a, b)`: same length and same bytes. -/
def bytesEqual (a b : List Byte) : Bool := decide (a = b)

/-- The method `SkipBytes` (util.go, lines 27-29). -/
def ByteBuf.SkipBytes (b : ByteBuf) (length : Int) : ByteBuf :=
  { b with readerIndex := addInt b.readerIndex length }

/-- The method `Index` (util.go, lines 59-73); `indexes` is the variadic
argument, read at positions the length tests guard. -/
def ByteBuf.Index (b : ByteBuf) (p : List Byte) (indexes : List Int) : Option (ByteBuf × Int) :=
  if indexes.length ≥ 2 then
    if indexes.getD 1 0 > indexes.getD 0 0 ∧ indexes.getD 1 0 < b.capacity
        ∧ indexes.getD 0 0 > 0 then
      match sliceRange b.buf (indexes.getD 0 0) (indexes.getD 1 0) with
      | none => none
      | some t => some (b, bytesIndex t p)
    else some (b, -1)
  else if indexes.length ≥ 1 then
    if indexes.getD 0 0 > 0 ∧ indexes.getD 0 0 < b.capacity then
      match sliceFrom b.buf (indexes.getD 0 0) with
      | none => none
      | some t => some (b, bytesIndex t p)
    else some (b, -1)
  else some (b, bytesIndex b.buf p)

/-- The method `Equal` (util.go, lines 75-78). -/
def ByteBuf.Equal (b ob : ByteBuf) : Bool :=
  bytesEqual ob.buf b.buf

/-- The method `Copy` (util.go, lines 87-101): the receiver after the call and
the new buffer. -/
def ByteBuf.Copy (b : ByteBuf) : Option (ByteBuf × ByteBuf) :=
  match make (b.buf.length : Int) with
  | none => none
  | some p =>
    some (b,
      { buf := copy p b.buf
        capacity := b.capacity
        readerIndex := b.readerIndex
        readerMarker := b.readerMarker
        writerIndex := b.writerIndex
        writerMarker := b.writerMarker })

/-- The loop of `ForEachByte` (util.go, lines 122-129) with `n` the number of
iterations `end - start` the condition `start < end` still admits. The visitor
is a function of the byte; `visited` records, in order, the index of every byte
it has been called on. The result is the count and the record. -/
def forEachLoop (iterator : Byte → Bool) (buf : List Byte) :
    Nat → Int → Int → List Int → Option (Int × List Int)
  | 0, _, count, visited => some (count, visited)
  | n + 1, start, count, visited =>
    match indexAt buf start with
    | none => none
    | some v =>
      if iterator v then
        forEachLoop iterator buf n (addInt start 1) (addInt count 1) (visited ++ [start])
      else some (count, visited ++ [start])

/-- The method `ForEachByte` (util.go, lines 104-130): the state after the
call, the count returned and the indices of the bytes the visitor was called
on. -/
def ByteBuf.ForEachByte (b : ByteBuf) (iterator : Byte → Bool) (indexes : List Int) :
    Option (ByteBuf × Int × List Int) :=
  let start := b.readerIndex
  let end_ := b.writerIndex
  let start := if indexes.length ≥ 1 then indexes.getD 0 0 else start
  let end_ := if indexes.length ≥ 2 ∧ indexes.getD 1 0 < end_ then indexes.getD 1 0 else end_
  if start > end_ then some (b, 0, [])
  else
    let end_ := if end_ > b.capacity then b.capacity else end_
    match forEachLoop iterator b.buf (end_ - start).toNat start 0 [] with
    | none => none
    | some (count, visited) => some (b, count, visited)

/-! ## Collaborators of the string codec

The constructor and the integer and raw-byte primitives live in another file of
the package; they are given here as the specification describes them. -/

/-- Modelled from the spec: the constructor (`NewByteBuf`, and
`NewByteBufWithCapacity(0)` of the test) is not in util.go; "a Buffer is created
empty (capacity 0)". -/
def NewByteBuf : ByteBuf :=
  { buf := [], capacity := 0, readerIndex := 0, readerMarker := 0,
    writerIndex := 0, writerMarker := 0 }

/-- Modelled from the spec: the raw byte-range write `WriteBytes` is not in
util.go. It makes room with the capacity primitive `EnsureWritable(len(p))`,
copies exactly the bytes of `p` into the storage at `writerIndex` and advances
`writerIndex` by `len(p)`. Its error result, which every caller in util.go
discards, is left out; `none` stands for a failed growth or a storage shorter
than the region written. -/
def ByteBuf.WriteBytes (chunkSize : Int) (b : ByteBuf) (p : List Byte) : Option ByteBuf :=
  match b.EnsureWritable chunkSize p.length with
  | none => none
  | some b1 =>
    if 0 ≤ b1.writerIndex ∧ b1.writerIndex + (p.length : Int) ≤ (b1.buf.length : Int) then
      some { b1 with
        buf := b1.buf.take b1.writerIndex.toNat ++ p
          ++ b1.buf.drop (b1.writerIndex.toNat + p.length)
        writerIndex := addInt b1.writerIndex p.length }
    else none

/-- Modelled from the spec: the 8-bit unsigned write `WriteByte` is not in
util.go; it writes the one byte at `writerIndex` and advances the cursor. -/
def ByteBuf.WriteByte (chunkSize : Int) (b : ByteBuf) (v : Byte) : Option ByteBuf :=
  b.WriteBytes chunkSize [v]

/-- Modelled from the spec: the 16-bit unsigned write `WriteUInt16BE` is not in
util.go; it writes the two bytes of `v` in big-endian order. -/
def ByteBuf.WriteUInt16BE (chunkSize : Int) (b : ByteBuf) (v : Nat) : Option ByteBuf :=
  b.WriteBytes chunkSize [byteOf (v / 256), byteOf v]

/-- Modelled from the spec: the 32-bit unsigned write `WriteUInt32BE` is not in
util.go; it writes the four bytes of `v` in big-endian order. -/
def ByteBuf.WriteUInt32BE (chunkSize : Int) (b : ByteBuf) (v : Nat) : Option ByteBuf :=
  b.WriteBytes chunkSize
    [byteOf (v / 16777216), byteOf (v / 65536), byteOf (v / 256), byteOf v]

/-- Modelled from the spec: the common part of the read primitives, which are
not in util.go: the `n` bytes at `readerIndex` are handed out and the cursor
advances by `n`. The specification gives the primitives no behaviour when fewer
than `n` readable bytes are present ("under-supply yields whatever the
underlying raw-read primitive does"); that case is `none`. -/
def ByteBuf.readN (b : ByteBuf) (n : Nat) : Option (ByteBuf × List Byte) :=
  if 0 ≤ b.readerIndex ∧ b.readerIndex + (n : Int) ≤ b.writerIndex
      ∧ b.writerIndex ≤ (b.buf.length : Int) then
    some ({ b with readerIndex := addInt b.readerIndex n },
      (b.buf.drop b.readerIndex.toNat).take n)
  else none

/-- Modelled from the spec: the raw byte-range read `ReadBytes` is not in
util.go; it fills the caller's region `dst` with the next `len(dst)` readable
bytes. The result carries the region after the call. -/
def ByteBuf.ReadBytes (b : ByteBuf) (dst : List Byte) : Option (ByteBuf × List Byte) :=
  b.readN dst.length

/-- Modelled from the spec: the 8-bit unsigned read `ReadByte` is not in
util.go. -/
def ByteBuf.ReadByte (b : ByteBuf) : Option (ByteBuf × Byte) :=
  match b.readN 1 with
  | some (b1, [v]) => some (b1, v)
  | _ => none

/-- Modelled from the spec: the 16-bit unsigned big-endian read `ReadUInt16BE`
is not in util.go. -/
def ByteBuf.ReadUInt16BE (b : ByteBuf) : Option (ByteBuf × Nat) :=
  match b.readN 2 with
  | some (b1, [v1, v0]) => some (b1, v1.val * 256 + v0.val)
  | _ => none

/-- Modelled from the spec: the 32-bit unsigned big-endian read `ReadUInt32BE`
is not in util.go. -/
def ByteBuf.ReadUInt32BE (b : ByteBuf) : Option (ByteBuf × Nat) :=
  match b.readN 4 with
  | some (b1, [v3, v2, v1, v0]) =>
    some (b1, v3.val * 16777216 + v2.val * 65536 + v1.val * 256 + v0.val)
  | _ => none

/-! ## The length-prefixed string codec (util.go, lines 156-219)

An `error` result is `none` for `nil` and `some msg` for `errors.New(msg)`. -/

/-- The method `readString` (util.go, lines 156-160). -/
def ByteBuf.readString (b : ByteBuf) (len : Int) : Option (ByteBuf × List Byte) :=
  match make len with
  | none => none
  | some buffer => b.ReadBytes buffer

/-- The method `ReadStringWithByteLength` (util.go, lines 162-165). -/
def ByteBuf.ReadStringWithByteLength (b : ByteBuf) : Option (ByteBuf × List Byte) :=
  match b.ReadByte with
  | none => none
  | some (b1, l) => b1.readString (l.val : Int)

/-- The method `ReadStringWithU16Length` (util.go, lines 167-170). -/
def ByteBuf.ReadStringWithU16Length (b : ByteBuf) : Option (ByteBuf × List Byte) :=
  match b.ReadUInt16BE with
  | none => none
  | some (b1, l) => b1.readString (l : Int)

/-- The method `ReadStringWithU32Length` (util.go, lines 172-175). -/
def ByteBuf.ReadStringWithU32Length (b : ByteBuf) : Option (ByteBuf × List Byte) :=
  match b.ReadUInt32BE with
  | none => none
  | some (b1, l) => b1.readString (l : Int)

/-- The method `writeString` (util.go, lines 185-189). -/
def ByteBuf.writeString (chunkSize : Int) (b : ByteBuf) (bytes : List Byte) : Option ByteBuf :=
  if bytes.length > 0 then b.WriteBytes chunkSize bytes else some b

/-- The method `WriteStringWithByteLength` (util.go, lines 191-199). -/
def ByteBuf.WriteStringWithByteLength (chunkSize : Int) (b : ByteBuf) (str : List Byte) :
    Option (ByteBuf × Option String) :=
  let bs := str
  if (bs.length : Int) > MaxUint8 then some (b, some "str length exceed MaxUint8")
  else
    match b.WriteByte chunkSize (byteOf bs.length) with
    | none => none
    | some b1 =>
      match b1.writeString chunkSize bs with
      | none => none
      | some b2 => some (b2, none)

/-- The method `WriteStringWithU16Length` (util.go, lines 201-209). -/
def ByteBuf.WriteStringWithU16Length (chunkSize : Int) (b : ByteBuf) (str : List Byte) :
    Option (ByteBuf × Option String) :=
  let bs := str
  if (bs.length : Int) > MaxUint16 then some (b, some "str length exceed MaxUint16")
  else
    match b.WriteUInt16BE chunkSize (bs.length % 65536) with
    | none => none
    | some b1 =>
      match b1.writeString chunkSize bs with
      | none => none
      | some b2 => some (b2, none)

/-- The method `WriteStringWithU32Length` (util.go, lines 211-219). -/
def ByteBuf.WriteStringWithU32Length (chunkSize : Int) (b : ByteBuf) (str : List Byte) :
    Option (ByteBuf × Option String) :=
  let bs := str
  if (bs.length : Int) > MaxUint32 then some (b, some "str length exceed MaxUint32")
  else
    match b.WriteUInt32BE chunkSize (bs.length % 4294967296) with
    | none => none
    | some b1 =>
      match b1.writeString chunkSize bs with
      | none => none
      | some b2 => some (b2, none)

/-! ## The test and the specification predicates -/

/-- The input of `Test_Read` (util_test.go): the 21 bytes of the UTF-8 string
"中华人民共和国". -/
def testStr : List Byte :=
  [228, 184, 173, 229, 141, 142, 228, 186, 186, 230, 176, 145, 229, 133, 177,
    229, 146, 140, 229, 155, 189]

/-- The function `Test_Read` (util_test.go), as the string it prints: written
with the 8-bit prefix into a buffer of capacity 0 and read back. -/
def Test_Read : Option (List Byte) :=
  match NewByteBuf.WriteStringWithByteLength ChunkSize testStr with
  | none => none
  | some (buf, _) =>
    match buf.ReadStringWithByteLength with
    | none => none
    | some (_, re) => some re

/-- The readable region `storage[readerIndex:writerIndex]` of the data model. -/
def ByteBuf.readable (b : ByteBuf) : List Byte :=
  (b.buf.drop b.readerIndex.toNat).take (b.writerIndex - b.readerIndex).toNat

/-- The specification predicate "`c` is the smallest multiple of `chunkSize`
that is `>= n`". -/
def IsSmallestMultipleGE (chunkSize n c : Int) : Prop :=
  chunkSize ∣ c ∧ n ≤ c ∧ ∀ m : Int, chunkSize ∣ m → n ≤ m → c ≤ m

/-- The cursor invariant of the data model:
`0 <= readerIndex <= writerIndex <= capacity`. -/
def ByteBuf.CursorInv (b : ByteBuf) : Prop :=
  0 ≤ b.readerIndex ∧ b.readerIndex ≤ b.writerIndex ∧ b.writerIndex ≤ b.capacity

/-- The pattern `p` occurs in `t` at offset `i`: `t[i : i+len(p)] = p`. -/
def OccursAt (t p : List Byte) (i : Nat) : Prop :=
  i + p.length ≤ t.length ∧ (t.drop i).take p.length = p

/-- The result `i` of a search for `p` in `t`, in the words of the
specification: `i >= 0` means that `p` occurs at offset `i` and at no smaller
offset, and `i` is `-1` exactly when `p` occurs nowhere in `t`. -/
def IsFirstIndex (t p : List Byte) (i : Int) : Prop :=
  (i = -1 ∨ 0 ≤ i) ∧
    (0 ≤ i → OccursAt t p i.toNat ∧ ∀ j : Nat, j < i.toNat → ¬ OccursAt t p j) ∧
    (i = -1 ↔ ∀ j : Nat, ¬ OccursAt t p j)

/-- The start bound of `ForEachByte` in the words of the specification: the
first explicit bound if given, else `readerIndex`. -/
def resolvedStart (b : ByteBuf) (indexes : List Int) : Int :=
  match indexes with
  | [] => b.readerIndex
  | s :: _ => s

/-- The end bound of `ForEachByte` in the words of the specification: the
second explicit bound only if it is given and smaller than `writerIndex`, else
`writerIndex`; then clamped to `capacity`. -/
def resolvedEnd (b : ByteBuf) (indexes : List Int) : Int :=
  match indexes with
  | _ :: e :: _ => min (min e b.writerIndex) b.capacity
  | _ => min b.writerIndex b.capacity

/-- The indices `start, start+1, ..., start+m-1`. -/
def indicesFrom (start : Int) (m : Nat) : List Int :=
  (List.range m).map (fun j : Nat => start + (j : Int))

/-! ## Machine arithmetic -/

theorem wrapInt_of_range (x : Int) (h1 : MinInt ≤ x) (h2 : x ≤ MaxInt) : wrapInt x = x := by
  unfold wrapInt
  unfold MinInt at h1
  unfold MaxInt at h2
  omega

theorem wrapInt_neg_of_overflow (x : Int) (h1 : MaxInt < x) (h2 : x < 18446744073709551616) :
    wrapInt x < 0 := by
  unfold wrapInt
  unfold MaxInt at h1
  omega

theorem tdiv_mul_bounds (x c : Int) (hc : 0 < c) :
    x < (Int.tdiv x c + 1) * c ∧
      (0 ≤ x → 0 ≤ Int.tdiv x c ∧ Int.tdiv x c * c ≤ x ∧ Int.tdiv x c ≤ x) ∧
      (x ≤ 0 → x ≤ Int.tdiv x c ∧ Int.tdiv x c ≤ 0 ∧ Int.tdiv x c * c ≤ 0) := by
  refine ⟨Int.lt_tdiv_add_one_mul_self x hc, ?_, ?_⟩
  · intro hx
    have hq : 0 ≤ Int.tdiv x c := Int.tdiv_nonneg hx (le_of_lt hc)
    have hm : 0 ≤ Int.tmod x c := Int.tmod_nonneg c hx
    have he := Int.tdiv_add_tmod' x c
    have h3 : Int.tdiv x c * c ≤ x := by omega
    have h4 : Int.tdiv x c * 1 ≤ Int.tdiv x c * c := by
      apply Int.mul_le_mul_of_nonneg_left _ hq
      omega
    refine ⟨hq, h3, ?_⟩
    omega
  · intro hx
    have hq : 0 ≤ Int.tdiv (-x) c := Int.tdiv_nonneg (by omega) (le_of_lt hc)
    have hm : 0 ≤ Int.tmod (-x) c := Int.tmod_nonneg c (by omega)
    have he := Int.tdiv_add_tmod' (-x) c
    have hn : Int.tdiv (-x) c = -Int.tdiv x c := Int.neg_tdiv x c
    rw [hn] at hq he
    have h4 : (-Int.tdiv x c) * 1 ≤ (-Int.tdiv x c) * c := by
      apply Int.mul_le_mul_of_nonneg_left _ hq
      omega
    have h5 : (-Int.tdiv x c) * c = -(Int.tdiv x c * c) := by ring
    refine ⟨?_, ?_, ?_⟩ <;> omega

theorem roundedCapacity_bounds (c n : Int) (hc : 0 < c) :
    n ≤ roundedCapacity c n ∧ (1 ≤ n → roundedCapacity c n ≤ n - 1 + c) ∧
      (n ≤ 1 → roundedCapacity c n ≤ c) := by
  unfold roundedCapacity
  obtain ⟨h1, h2, h3⟩ := tdiv_mul_bounds (n - 1) c hc
  have e : (Int.tdiv (n - 1) c + 1) * c = Int.tdiv (n - 1) c * c + c := by ring
  rw [e] at h1 ⊢
  refine ⟨by omega, ?_, ?_⟩
  · intro hn
    have := h2 (by omega)
    omega
  · intro hn
    have := h3 (by omega)
    omega

theorem capacity_arith (c n : Int) (hc : 0 < c) (hcm : c ≤ MaxInt) (hn1 : MinInt < n)
    (hn2 : n ≤ MaxInt) :
    divInt (subInt n 1) c = some (Int.tdiv (n - 1) c) ∧
      addInt (Int.tdiv (n - 1) c) 1 = Int.tdiv (n - 1) c + 1 ∧
      (roundedCapacity c n ≤ MaxInt →
        mulInt (Int.tdiv (n - 1) c + 1) c = roundedCapacity c n) ∧
      (MaxInt < roundedCapacity c n → mulInt (Int.tdiv (n - 1) c + 1) c < 0) := by
  obtain ⟨h1, h2, h3⟩ := tdiv_mul_bounds (n - 1) c hc
  obtain ⟨r1, r2, r3⟩ := roundedCapacity_bounds c n hc
  have hs : subInt n 1 = n - 1 := by
    unfold subInt
    apply wrapInt_of_range <;> unfold MinInt MaxInt at * <;> omega
  have hq : MinInt ≤ Int.tdiv (n - 1) c ∧ Int.tdiv (n - 1) c + 1 ≤ MaxInt := by
    rcases le_total 0 (n - 1) with h | h
    · have := h2 h
      unfold MinInt MaxInt at *
      omega
    · have := h3 h
      unfold MinInt MaxInt at *
      omega
  refine ⟨?_, ?_, ?_, ?_⟩
  · unfold divInt
    rw [if_neg (by omega), hs, wrapInt_of_range _ hq.1 (by omega)]
  · unfold addInt
    apply wrapInt_of_range <;> omega
  · intro h
    unfold mulInt
    apply wrapInt_of_range
    · show MinInt ≤ roundedCapacity c n
      omega
    · exact h
  · intro h
    unfold mulInt
    apply wrapInt_neg_of_overflow
    · exact h
    · show roundedCapacity c n < 18446744073709551616
      rcases le_total 1 n with h' | h'
      · have := r2 h'
        unfold MinInt MaxInt at *
        omega
      · have := r3 h'
        unfold MinInt MaxInt at *
        omega

theorem EnsureCapacity_eq (c : Int) (b : ByteBuf) (n : Int) (hc : 0 < c) (hcm : c ≤ MaxInt)
    (hn1 : MinInt < n) (hn2 : n ≤ MaxInt) :
    b.EnsureCapacity c n =
      if n ≤ b.capacity then some b
      else if 0 ≤ roundedCapacity c n ∧ roundedCapacity c n ≤ MaxInt then
        some { b with
          buf := copy (List.replicate (roundedCapacity c n).toNat 0) b.buf
          capacity := roundedCapacity c n }
      else none := by
  obtain ⟨a1, a2, a3, a4⟩ := capacity_arith c n hc hcm hn1 hn2
  unfold ByteBuf.EnsureCapacity
  by_cases h : n ≤ b.capacity
  · simp [h]
  · rw [if_neg h, if_neg h, a1]
    simp only [a2]
    by_cases hr : roundedCapacity c n ≤ MaxInt
    · rw [a3 hr]
      by_cases h0 : roundedCapacity c n < 0
      · have h1 : ¬ 0 ≤ roundedCapacity c n := by omega
        simp [make, h0, h1]
      · have h1 : 0 ≤ roundedCapacity c n := by omega
        simp [make, h0, h1, hr]
    · have := a4 (by omega)
      simp [make, this, hr]

theorem EnsureCapacity_noop (c : Int) (b : ByteBuf) (n : Int) (h : n ≤ b.capacity) :
    b.EnsureCapacity c n = some b := by
  unfold ByteBuf.EnsureCapacity
  rw [if_pos h]

theorem roundedCapacity_smallest (c n : Int) (hc : 0 < c) (hn : 1 ≤ n) :
    IsSmallestMultipleGE c n (roundedCapacity c n) := by
  obtain ⟨r1, r2, _⟩ := roundedCapacity_bounds c n hc
  refine ⟨?_, r1, ?_⟩
  · unfold roundedCapacity
    exact Dvd.intro_left _ rfl
  · rintro m ⟨k, rfl⟩ hm
    have h2 := r2 hn
    unfold roundedCapacity at h2 ⊢
    have h3 : (Int.tdiv (n - 1) c + 1) * c < (k + 1) * c := by
      have e : (k + 1) * c = c * k + c := by ring
      omega
    have h4 : Int.tdiv (n - 1) c + 1 < k + 1 := lt_of_mul_lt_mul_right h3 (le_of_lt hc)
    have h5 : (Int.tdiv (n - 1) c + 1) * c ≤ k * c :=
      Int.mul_le_mul_of_nonneg_right (by omega) (le_of_lt hc)
    have e : c * k = k * c := by ring
    omega

theorem length_copy_replicate (k : Nat) (src : List Byte) :
    (copy (List.replicate k 0) src).length = k := by
  unfold copy
  simp only [List.length_append, List.length_take, List.length_drop, List.length_replicate]
  omega

/-- C1: for a positive chunk size, `EnsureCapacity(size)` panics exactly when the
buffer must grow and the rounded capacity exceeds the range of `int`; whenever
it returns, the capacity is `>= size`, is unchanged when `size` was already
within the old capacity, and otherwise equals
`((size-1)/ChunkSize + 1) * ChunkSize`, the smallest multiple of the chunk size
that is `>= size`, which is also the exact length of the new backing storage. -/
theorem EnsureCapacity_contract (chunkSize : Int) (b : ByteBuf) (size : Int)
    (hc : 0 < chunkSize) (hcm : chunkSize ≤ MaxInt) (hcap : 0 ≤ b.capacity)
    (hs : size ≤ MaxInt) :
    (b.EnsureCapacity chunkSize size = none ↔
        b.capacity < size ∧ MaxInt < roundedCapacity chunkSize size) ∧
      ∀ b1 : ByteBuf, b.EnsureCapacity chunkSize size = some b1 →
        size ≤ b1.capacity ∧
        (size ≤ b.capacity → b1.capacity = b.capacity) ∧
        (b.capacity < size →
          b1.capacity = roundedCapacity chunkSize size ∧
          IsSmallestMultipleGE chunkSize size b1.capacity ∧
          (b1.buf.length : Int) = b1.capacity) := by
  by_cases h : size ≤ b.capacity
  · rw [EnsureCapacity_noop chunkSize b size h]
    refine ⟨by simp; omega, ?_⟩
    intro b1 hb
    cases hb
    exact ⟨h, fun _ => rfl, fun h2 => absurd h (by omega)⟩
  · have hn1 : MinInt < size := by unfold MinInt; omega
    obtain ⟨r1, r2, _⟩ := roundedCapacity_bounds chunkSize size hc
    rw [EnsureCapacity_eq chunkSize b size hc hcm hn1 hs, if_neg h]
    by_cases hf : roundedCapacity chunkSize size ≤ MaxInt
    · rw [if_pos ⟨by omega, hf⟩]
      refine ⟨by simp; omega, ?_⟩
      intro b1 hb
      cases hb
      refine ⟨r1, fun h2 => absurd h2 h, fun _ => ⟨rfl, ?_, ?_⟩⟩
      · exact roundedCapacity_smallest chunkSize size hc (by omega)
      · show ((copy _ _).length : Int) = roundedCapacity chunkSize size
        rw [length_copy_replicate]
        omega
    · rw [if_neg (by omega)]
      refine ⟨by simp; omega, ?_⟩
      intro b1 hb
      cases hb

/-- C1 at the zero-value buffer, the default chunk size and `size = 1025`: the call
returns with capacity 2048. -/
theorem EnsureCapacity_contract_witness :
    ∃ b1 : ByteBuf, ByteBuf.zero.EnsureCapacity ChunkSize 1025 = some b1 ∧
      (1025 : Int) ≤ b1.capacity ∧ b1.capacity = 2048 ∧
      IsSmallestMultipleGE ChunkSize 1025 b1.capacity ∧
      (b1.buf.length : Int) = b1.capacity := by
  have h := (EnsureCapacity_contract ChunkSize ByteBuf.zero 1025 (by decide) (by decide)
    (by decide) (by decide)).2 _ rfl
  have h2 := h.2.2 (by decide)
  exact ⟨_, rfl, h.1, rfl, h2.2.1, h2.2.2⟩

/-- C2, as stated, fails: from the zero-value buffer with the default chunk size,
`EnsureCapacity(1025)` gives capacity 2048 and the following `EnsureCapacity(1)`
leaves it at 2048, which is not the smallest multiple of 1024 that is `>= 1`. -/
theorem EnsureCapacity_keeps_larger_capacity :
    ∃ b1 b2 : ByteBuf,
      ByteBuf.zero.EnsureCapacity ChunkSize 1025 = some b1 ∧
      b1.EnsureCapacity ChunkSize 1 = some b2 ∧
      b2.capacity = 2048 ∧ ¬ IsSmallestMultipleGE ChunkSize 1 b2.capacity := by
  refine ⟨_, _, rfl, rfl, rfl, ?_⟩
  rintro ⟨_, _, h⟩
  have := h 1024 (by decide) (by decide)
  revert this
  decide

/-- C2, amended: a call `EnsureCapacity(n)` with `n` within the old capacity
returns with the capacity unchanged; a call with `n` above the old capacity,
when the rounded capacity is representable, returns with the capacity equal to
the smallest multiple of the chunk size that is `>= n`. -/
theorem EnsureCapacity_smallest_multiple_when_growing (chunkSize : Int) (b : ByteBuf) (n : Int)
    (hc : 0 < chunkSize) (hcm : chunkSize ≤ MaxInt) (hcap : 0 ≤ b.capacity)
    (hn : n ≤ MaxInt) :
    (n ≤ b.capacity →
        ∃ b1 : ByteBuf, b.EnsureCapacity chunkSize n = some b1 ∧ b1.capacity = b.capacity) ∧
      (b.capacity < n → roundedCapacity chunkSize n ≤ MaxInt →
        ∃ b1 : ByteBuf, b.EnsureCapacity chunkSize n = some b1 ∧
          IsSmallestMultipleGE chunkSize n b1.capacity) := by
  constructor
  · intro h
    exact ⟨b, EnsureCapacity_noop chunkSize b n h, rfl⟩
  · intro h hf
    have hn1 : MinInt < n := by unfold MinInt; omega
    obtain ⟨r1, _, _⟩ := roundedCapacity_bounds chunkSize n hc
    rw [EnsureCapacity_eq chunkSize b n hc hcm hn1 hn, if_neg (by omega),
      if_pos ⟨by omega, hf⟩]
    exact ⟨_, rfl, roundedCapacity_smallest chunkSize n hc (by omega)⟩

/-- C2, amended, at the zero-value buffer and `n = 1025`. -/
theorem EnsureCapacity_smallest_multiple_when_growing_witness :
    ∃ b1 : ByteBuf, ByteBuf.zero.EnsureCapacity ChunkSize 1025 = some b1 ∧
      IsSmallestMultipleGE ChunkSize 1025 b1.capacity :=
  (EnsureCapacity_smallest_multiple_when_growing ChunkSize ByteBuf.zero 1025 (by decide)
    (by decide) (by decide) (by decide)).2 (by decide) (by decide)

/-- C3: `EnsureCapacity` is idempotent: for a positive chunk size and `m <= n`,
running `EnsureCapacity(n)` and then `EnsureCapacity(m)` has exactly the outcome
of `EnsureCapacity(n)` alone: the same whole state (capacity, storage, cursors
and markers), or the same panic. -/
theorem EnsureCapacity_idempotent (chunkSize : Int) (b : ByteBuf) (n m : Int)
    (hc : 0 < chunkSize) (hcm : chunkSize ≤ MaxInt) (hcap : MinInt ≤ b.capacity)
    (hn : n ≤ MaxInt) (hm : m ≤ n) :
    (b.EnsureCapacity chunkSize n).bind (fun b1 => b1.EnsureCapacity chunkSize m)
      = b.EnsureCapacity chunkSize n := by
  by_cases h : n ≤ b.capacity
  · rw [EnsureCapacity_noop chunkSize b n h]
    exact EnsureCapacity_noop chunkSize b m (by omega)
  · have hn1 : MinInt < n := by omega
    obtain ⟨r1, _, _⟩ := roundedCapacity_bounds chunkSize n hc
    rw [EnsureCapacity_eq chunkSize b n hc hcm hn1 hn, if_neg h]
    by_cases hf : 0 ≤ roundedCapacity chunkSize n ∧ roundedCapacity chunkSize n ≤ MaxInt
    · rw [if_pos hf]
      exact EnsureCapacity_noop chunkSize _ m (by show m ≤ roundedCapacity chunkSize n; omega)
    · rw [if_neg hf]
      rfl

/-- C3 at the zero-value buffer with `n = 1025` and `m = 1`: the first call returns
and the second changes nothing. -/
theorem EnsureCapacity_idempotent_witness :
    (ByteBuf.zero.EnsureCapacity ChunkSize 1025).isSome = true ∧
      (ByteBuf.zero.EnsureCapacity ChunkSize 1025).bind
          (fun b1 => b1.EnsureCapacity ChunkSize 1)
        = ByteBuf.zero.EnsureCapacity ChunkSize 1025 :=
  ⟨rfl, EnsureCapacity_idempotent ChunkSize ByteBuf.zero 1025 1 (by decide) (by decide)
    (by decide) (by decide) (by decide)⟩

theorem copy_replicate_of_le (k : Nat) (src : List Byte) (h : src.length ≤ k) :
    copy (List.replicate k 0) src = src ++ List.replicate (k - src.length) 0 := by
  unfold copy
  rw [List.length_replicate, List.take_of_length_le h, List.drop_replicate]

/-- C4: `EnsureCapacity` changes neither existing data nor cursors. On a buffer
whose storage is no longer than its capacity, a call whose rounded capacity is
representable returns; the new storage is the old one followed by zero bytes,
so every byte below the old storage length is unchanged at its index and every
added byte is zero; `readerIndex`, `writerIndex`, `readerMarker` and
`writerMarker` are unchanged; and with `size <= capacity` the whole state is
unchanged. -/
theorem EnsureCapacity_frame (chunkSize : Int) (b : ByteBuf) (size : Int)
    (hc : 0 < chunkSize) (hcm : chunkSize ≤ MaxInt)
    (hlen : (b.buf.length : Int) ≤ b.capacity) (hs : size ≤ MaxInt)
    (hfit : b.capacity < size → roundedCapacity chunkSize size ≤ MaxInt) :
    ∃ b1 : ByteBuf, b.EnsureCapacity chunkSize size = some b1 ∧
      b1.buf = b.buf ++ List.replicate (b1.buf.length - b.buf.length) 0 ∧
      (∀ i : Nat, i < b.buf.length → b1.buf[i]? = b.buf[i]?) ∧
      (∀ i : Nat, b.buf.length ≤ i → i < b1.buf.length → b1.buf[i]? = some 0) ∧
      b1.readerIndex = b.readerIndex ∧ b1.writerIndex = b.writerIndex ∧
      b1.readerMarker = b.readerMarker ∧ b1.writerMarker = b.writerMarker ∧
      (size ≤ b.capacity → b1 = b) := by
  have key : ∃ b1 : ByteBuf, b.EnsureCapacity chunkSize size = some b1 ∧
      b1.buf = b.buf ++ List.replicate (b1.buf.length - b.buf.length) 0 ∧
      b1.readerIndex = b.readerIndex ∧ b1.writerIndex = b.writerIndex ∧
      b1.readerMarker = b.readerMarker ∧ b1.writerMarker = b.writerMarker ∧
      (size ≤ b.capacity → b1 = b) := by
    by_cases h : size ≤ b.capacity
    · exact ⟨b, EnsureCapacity_noop chunkSize b size h, by simp, rfl, rfl, rfl, rfl, fun _ => rfl⟩
    · have hn1 : MinInt < size := by unfold MinInt; omega
      obtain ⟨r1, _, _⟩ := roundedCapacity_bounds chunkSize size hc
      have hf := hfit (by omega)
      rw [EnsureCapacity_eq chunkSize b size hc hcm hn1 hs, if_neg h, if_pos ⟨by omega, hf⟩]
      refine ⟨_, rfl, ?_, rfl, rfl, rfl, rfl, fun h2 => absurd h2 h⟩
      have hk : b.buf.length ≤ (roundedCapacity chunkSize size).toNat := by omega
      show copy _ _ = b.buf ++ List.replicate ((copy _ _).length - _) 0
      rw [length_copy_replicate, copy_replicate_of_le _ _ hk]
  obtain ⟨b1, e, hbuf, h1, h2, h3, h4, h5⟩ := key
  refine ⟨b1, e, hbuf, ?_, ?_, h1, h2, h3, h4, h5⟩
  · intro i hi
    rw [hbuf, List.getElem?_append_left hi]
  · intro i hi1 hi2
    rw [hbuf, List.getElem?_append_right hi1, List.getElem?_replicate, if_pos (by omega)]

/-- C4 at a two-byte buffer grown to size 3 with chunk size 4. -/
theorem EnsureCapacity_frame_witness :
    ∃ b1 : ByteBuf, (ByteBuf.mk [7, 8] 2 1 0 2 0).EnsureCapacity 4 3 = some b1 ∧
      b1.buf = [7, 8] ++ List.replicate (b1.buf.length - 2) 0 ∧
      b1.readerIndex = 1 ∧ b1.writerIndex = 2 := by
  obtain ⟨b1, e, hbuf, _, _, h1, h2, _⟩ :=
    EnsureCapacity_frame 4 (ByteBuf.mk [7, 8] 2 1 0 2 0) 3 (by decide) (by decide)
      (by decide) (by decide) (by decide)
  exact ⟨b1, e, hbuf, h1, h2⟩

/-- C5, as stated, fails: on a four-byte buffer with `writerIndex = 1`,
`EnsureWritable(MaxInt)` computes `1 + MaxInt`, which wraps to the smallest
`int`; `EnsureCapacity` is then a no-op and the writable region keeps 3 bytes. -/
theorem EnsureWritable_overflow_returns_unchanged :
    (ByteBuf.mk [0, 0, 0, 0] 4 0 0 1 0).EnsureWritable ChunkSize MaxInt
        = some (ByteBuf.mk [0, 0, 0, 0] 4 0 0 1 0) ∧
      ¬ (MaxInt ≤ (ByteBuf.mk [0, 0, 0, 0] 4 0 0 1 0).capacity
          - (ByteBuf.mk [0, 0, 0, 0] 4 0 0 1 0).writerIndex) := by
  decide

/-- C5, amended: `EnsureWritable(size)` has exactly the outcome of
`EnsureCapacity(writerIndex + size)`, the sum taken in wrapping `int`
arithmetic; when the exact sum `writerIndex + size` is within the range of
`int` and the rounded capacity is representable, the call returns and
afterwards `capacity - writerIndex >= size`. -/
theorem EnsureWritable_contract (chunkSize : Int) (b : ByteBuf) (size : Int)
    (hc : 0 < chunkSize) (hcm : chunkSize ≤ MaxInt) (hcap : 0 ≤ b.capacity)
    (hlo : MinInt ≤ b.writerIndex + size) (hhi : b.writerIndex + size ≤ MaxInt)
    (hfit : b.capacity < b.writerIndex + size →
      roundedCapacity chunkSize (b.writerIndex + size) ≤ MaxInt) :
    b.EnsureWritable chunkSize size = b.EnsureCapacity chunkSize (addInt b.writerIndex size) ∧
      b.EnsureWritable chunkSize size = b.EnsureCapacity chunkSize (b.writerIndex + size) ∧
      ∃ b1 : ByteBuf, b.EnsureWritable chunkSize size = some b1 ∧
        size ≤ b1.capacity - b1.writerIndex := by
  have hadd : addInt b.writerIndex size = b.writerIndex + size :=
    wrapInt_of_range _ hlo hhi
  refine ⟨rfl, by unfold ByteBuf.EnsureWritable; rw [hadd], ?_⟩
  unfold ByteBuf.EnsureWritable
  rw [hadd]
  by_cases h : b.writerIndex + size ≤ b.capacity
  · exact ⟨b, EnsureCapacity_noop chunkSize b _ h, by omega⟩
  · have hn1 : MinInt < b.writerIndex + size := by unfold MinInt; omega
    obtain ⟨r1, _, _⟩ := roundedCapacity_bounds chunkSize (b.writerIndex + size) hc
    have hf := hfit (by omega)
    rw [EnsureCapacity_eq chunkSize b _ hc hcm hn1 hhi, if_neg h, if_pos ⟨by omega, hf⟩]
    refine ⟨_, rfl, ?_⟩
    show size ≤ roundedCapacity chunkSize (b.writerIndex + size) - b.writerIndex
    omega

/-- C5, amended, at a four-byte buffer with `writerIndex = 2`, chunk size 4 and
`size = 3`. -/
theorem EnsureWritable_contract_witness :
    ∃ b1 : ByteBuf, (ByteBuf.mk [7, 8, 0, 0] 4 0 0 2 0).EnsureWritable 4 3 = some b1 ∧
      (3 : Int) ≤ b1.capacity - b1.writerIndex :=
  (EnsureWritable_contract 4 (ByteBuf.mk [7, 8, 0, 0] 4 0 0 2 0) 3 (by decide) (by decide)
    (by decide) (by decide) (by decide) (by decide)).2.2

/-! ## Growth and the raw primitives -/

theorem EnsureCapacity_grow_spec (c : Int) (b : ByteBuf) (n : Int) (hc : 0 < c)
    (hcm : c ≤ MaxInt) (hcap : b.capacity = (b.buf.length : Int))
    (hfit : n + c ≤ MaxInt) :
    ∃ (b1 : ByteBuf) (k : Nat), b.EnsureCapacity c n = some b1 ∧
      b1.buf = b.buf ++ List.replicate k 0 ∧ b1.capacity = (b1.buf.length : Int) ∧
      n ≤ b1.capacity ∧ b1.readerIndex = b.readerIndex ∧ b1.writerIndex = b.writerIndex ∧
      b1.readerMarker = b.readerMarker ∧ b1.writerMarker = b.writerMarker := by
  by_cases h : n ≤ b.capacity
  · exact ⟨b, 0, EnsureCapacity_noop c b n h, by simp, hcap, h, rfl, rfl, rfl, rfl⟩
  · have hn1 : MinInt < n := by unfold MinInt; omega
    obtain ⟨r1, r2, _⟩ := roundedCapacity_bounds c n hc
    have hf : roundedCapacity c n ≤ MaxInt := by
      have := r2 (by omega)
      omega
    rw [EnsureCapacity_eq c b n hc hcm hn1 (by omega), if_neg h, if_pos ⟨by omega, hf⟩]
    have hk : b.buf.length ≤ (roundedCapacity c n).toNat := by omega
    refine ⟨_, (roundedCapacity c n).toNat - b.buf.length, rfl, ?_, ?_, r1, rfl, rfl, rfl, rfl⟩
    · exact copy_replicate_of_le _ _ hk
    · show roundedCapacity c n = ((copy _ _).length : Int)
      rw [length_copy_replicate]
      omega

theorem WriteBytes_spec (c : Int) (b : ByteBuf) (p : List Byte) (hc : 0 < c)
    (hcm : c ≤ MaxInt) (hcap : b.capacity = (b.buf.length : Int))
    (hw0 : 0 ≤ b.writerIndex) (hwc : b.writerIndex ≤ b.capacity)
    (hfit : b.writerIndex + (p.length : Int) + c ≤ MaxInt) :
    ∃ (b1 : ByteBuf) (post : List Byte), b.WriteBytes c p = some b1 ∧
      b1.buf = b.buf.take b.writerIndex.toNat ++ p ++ post ∧
      b1.capacity = (b1.buf.length : Int) ∧
      b1.writerIndex = b.writerIndex + (p.length : Int) ∧
      b1.readerIndex = b.readerIndex ∧
      b1.readerMarker = b.readerMarker ∧ b1.writerMarker = b.writerMarker := by
  have hadd : addInt b.writerIndex (p.length : Int) = b.writerIndex + (p.length : Int) :=
    wrapInt_of_range _ (by unfold MinInt; omega) (by omega)
  obtain ⟨b1, k, e, hbuf, hcap1, hn, hr, hw, hrm, hwm⟩ :=
    EnsureCapacity_grow_spec c b (b.writerIndex + (p.length : Int)) hc hcm hcap hfit
  unfold ByteBuf.WriteBytes ByteBuf.EnsureWritable
  rw [hadd, e]
  have hin : 0 ≤ b1.writerIndex ∧ b1.writerIndex + (p.length : Int) ≤ (b1.buf.length : Int) := by
    rw [hw]
    omega
  simp only [if_pos hin]
  have hwl : b.writerIndex.toNat ≤ b.buf.length := by omega
  refine ⟨_, b1.buf.drop (b1.writerIndex.toNat + p.length), rfl, ?_, ?_, ?_, hr, hrm, hwm⟩
  · show b1.buf.take b1.writerIndex.toNat ++ p ++ _ = _
    rw [hw, hbuf, List.take_append_of_le_length hwl]
  · show b1.capacity = ((b1.buf.take b1.writerIndex.toNat ++ p
      ++ b1.buf.drop (b1.writerIndex.toNat + p.length)).length : Int)
    simp only [List.length_append, List.length_take, List.length_drop]
    omega
  · show addInt b1.writerIndex (p.length : Int) = _
    rw [hw, hadd]

theorem write_with_header (c : Int) (b : ByteBuf) (hdr s : List Byte) (hc : 0 < c)
    (hcm : c ≤ MaxInt) (hcap : b.capacity = (b.buf.length : Int))
    (hw0 : 0 ≤ b.writerIndex) (hwc : b.writerIndex ≤ b.capacity)
    (hfit : b.writerIndex + ((hdr.length : Int) + (s.length : Int)) + c ≤ MaxInt) :
    ∃ (b1 b2 : ByteBuf) (post : List Byte), b.WriteBytes c hdr = some b1 ∧
      b1.writeString c s = some b2 ∧
      b2.buf = b.buf.take b.writerIndex.toNat ++ (hdr ++ s) ++ post ∧
      b2.capacity = (b2.buf.length : Int) ∧
      b2.writerIndex = b.writerIndex + ((hdr.length : Int) + (s.length : Int)) ∧
      b2.readerIndex = b.readerIndex ∧
      b2.readerMarker = b.readerMarker ∧ b2.writerMarker = b.writerMarker := by
  obtain ⟨b1, post1, e1, hbuf1, hcap1, hw1, hr1, hrm1, hwm1⟩ :=
    WriteBytes_spec c b hdr hc hcm hcap hw0 hwc (by omega)
  have hwl : b.writerIndex.toNat ≤ b.buf.length := by omega
  have hlen1 : (b1.buf.length : Int) = b.writerIndex + (hdr.length : Int) + (post1.length : Int) := by
    rw [hbuf1]
    simp only [List.length_append, List.length_take]
    omega
  by_cases hs : s.length > 0
  · obtain ⟨b2, post2, e2, hbuf2, hcap2, hw2, hr2, hrm2, hwm2⟩ :=
      WriteBytes_spec c b1 s hc hcm hcap1 (by omega) (by omega) (by omega)
    refine ⟨b1, b2, post2, e1, ?_, ?_, hcap2, by omega, by omega, by omega, by omega⟩
    · unfold ByteBuf.writeString
      rw [if_pos hs, e2]
    · rw [hbuf2, hbuf1]
      have hl : (b.buf.take b.writerIndex.toNat ++ hdr).length = b1.writerIndex.toNat := by
        simp only [List.length_append, List.length_take]
        omega
      rw [List.take_left' hl]
      simp only [List.append_assoc]
  · have hs0 : s = [] := List.length_eq_zero.mp (by omega)
    subst hs0
    refine ⟨b1, b1, post1, e1, ?_, ?_, hcap1, ?_, hr1, hrm1, hwm1⟩
    · unfold ByteBuf.writeString
      rw [if_neg hs]
    · rw [hbuf1]
      simp
    · rw [hw1]
      simp

theorem readN_spec (b : ByteBuf) (pre mid post : List Byte)
    (hbuf : b.buf = pre ++ mid ++ post) (hr : b.readerIndex = (pre.length : Int))
    (hrw : b.readerIndex + (mid.length : Int) ≤ b.writerIndex)
    (hwl : b.writerIndex ≤ (b.buf.length : Int)) (hw : b.writerIndex ≤ MaxInt) :
    b.readN mid.length
      = some ({ b with readerIndex := b.readerIndex + (mid.length : Int) }, mid) := by
  have hadd : addInt b.readerIndex (mid.length : Int) = b.readerIndex + (mid.length : Int) :=
    wrapInt_of_range _ (by unfold MinInt; omega) (by omega)
  unfold ByteBuf.readN
  rw [if_pos ⟨by omega, hrw, hwl⟩, hadd, hbuf, hr]
  have e : (pre.length : Int).toNat = pre.length := by omega
  rw [e, List.append_assoc, List.drop_left, List.take_left]

/-! ## The string codec -/

theorem readString_spec (b : ByteBuf) (pre s post : List Byte)
    (hbuf : b.buf = pre ++ s ++ post) (hr : b.readerIndex = (pre.length : Int))
    (hrw : b.readerIndex + (s.length : Int) ≤ b.writerIndex)
    (hwl : b.writerIndex ≤ (b.buf.length : Int)) (hw : b.writerIndex ≤ MaxInt) :
    b.readString (s.length : Int)
      = some ({ b with readerIndex := b.readerIndex + (s.length : Int) }, s) := by
  unfold ByteBuf.readString make ByteBuf.ReadBytes
  rw [if_neg (by omega)]
  simp only [List.length_replicate, Int.toNat_ofNat]
  exact readN_spec b pre s post hbuf hr hrw hwl hw

theorem read_after_header (b : ByteBuf) (pre hdr s post : List Byte)
    (hbuf : b.buf = pre ++ (hdr ++ s) ++ post) (hr : b.readerIndex = (pre.length : Int))
    (hrw : b.readerIndex + ((hdr.length : Int) + (s.length : Int)) ≤ b.writerIndex)
    (hwl : b.writerIndex ≤ (b.buf.length : Int)) (hw : b.writerIndex ≤ MaxInt) :
    b.readN hdr.length
        = some ({ b with readerIndex := b.readerIndex + (hdr.length : Int) }, hdr) ∧
      ({ b with readerIndex := b.readerIndex + (hdr.length : Int) } : ByteBuf).readString
          (s.length : Int)
        = some ({ b with
            readerIndex := b.readerIndex + ((hdr.length : Int) + (s.length : Int)) }, s) := by
  constructor
  · exact readN_spec b pre hdr (s ++ post) (by rw [hbuf]; simp) hr (by omega) hwl hw
  · have h := readString_spec
      ({ b with readerIndex := b.readerIndex + (hdr.length : Int) } : ByteBuf)
      (pre ++ hdr) s post (by show b.buf = _; rw [hbuf]; simp)
      (by show b.readerIndex + (hdr.length : Int) = _; rw [hr]; simp)
      (by show b.readerIndex + (hdr.length : Int) + (s.length : Int) ≤ b.writerIndex; omega)
      hwl hw
    rw [h]
    simp only [Int.add_assoc]

theorem byteOf_val_of_le (n : Nat) (h : n ≤ 255) : (byteOf n).val = n := by
  unfold byteOf
  exact Nat.mod_eq_of_lt (by omega)

theorem ReadStringWithByteLength_spec (b : ByteBuf) (pre s post : List Byte)
    (hbuf : b.buf = pre ++ ([byteOf s.length] ++ s) ++ post)
    (hr : b.readerIndex = (pre.length : Int))
    (hrw : b.readerIndex + (1 + (s.length : Int)) ≤ b.writerIndex)
    (hwl : b.writerIndex ≤ (b.buf.length : Int)) (hw : b.writerIndex ≤ MaxInt)
    (hlen : s.length ≤ 255) :
    b.ReadStringWithByteLength
      = some ({ b with readerIndex := b.readerIndex + (1 + (s.length : Int)) }, s) := by
  obtain ⟨h1, h2⟩ := read_after_header b pre [byteOf s.length] s post hbuf hr hrw hwl hw
  have h1' : b.readN 1 = some ({ b with readerIndex := b.readerIndex + 1 }, [byteOf s.length]) :=
    h1
  unfold ByteBuf.ReadStringWithByteLength ByteBuf.ReadByte
  rw [h1']
  simp only [byteOf_val_of_le s.length hlen]
  exact h2

theorem ReadStringWithU16Length_spec (b : ByteBuf) (pre s post : List Byte)
    (hbuf : b.buf = pre ++ ([byteOf (s.length % 65536 / 256), byteOf (s.length % 65536)] ++ s)
      ++ post)
    (hr : b.readerIndex = (pre.length : Int))
    (hrw : b.readerIndex + (2 + (s.length : Int)) ≤ b.writerIndex)
    (hwl : b.writerIndex ≤ (b.buf.length : Int)) (hw : b.writerIndex ≤ MaxInt)
    (hlen : s.length ≤ 65535) :
    b.ReadStringWithU16Length
      = some ({ b with readerIndex := b.readerIndex + (2 + (s.length : Int)) }, s) := by
  obtain ⟨h1, h2⟩ := read_after_header b pre _ s post hbuf hr hrw hwl hw
  have h1' : b.readN 2 = some ({ b with readerIndex := b.readerIndex + 2 },
      [byteOf (s.length % 65536 / 256), byteOf (s.length % 65536)]) := h1
  have hv : (byteOf (s.length % 65536 / 256)).val * 256 + (byteOf (s.length % 65536)).val
      = s.length := by
    show s.length % 65536 / 256 % 256 * 256 + s.length % 65536 % 256 = s.length
    omega
  unfold ByteBuf.ReadStringWithU16Length ByteBuf.ReadUInt16BE
  rw [h1']
  simp only [hv]
  exact h2

theorem ReadStringWithU32Length_spec (b : ByteBuf) (pre s post : List Byte)
    (hbuf : b.buf = pre ++ ([byteOf (s.length % 4294967296 / 16777216),
      byteOf (s.length % 4294967296 / 65536), byteOf (s.length % 4294967296 / 256),
      byteOf (s.length % 4294967296)] ++ s) ++ post)
    (hr : b.readerIndex = (pre.length : Int))
    (hrw : b.readerIndex + (4 + (s.length : Int)) ≤ b.writerIndex)
    (hwl : b.writerIndex ≤ (b.buf.length : Int)) (hw : b.writerIndex ≤ MaxInt)
    (hlen : s.length ≤ 4294967295) :
    b.ReadStringWithU32Length
      = some ({ b with readerIndex := b.readerIndex + (4 + (s.length : Int)) }, s) := by
  obtain ⟨h1, h2⟩ := read_after_header b pre _ s post hbuf hr hrw hwl hw
  have h1' : b.readN 4 = some ({ b with readerIndex := b.readerIndex + 4 },
      [byteOf (s.length % 4294967296 / 16777216), byteOf (s.length % 4294967296 / 65536),
        byteOf (s.length % 4294967296 / 256), byteOf (s.length % 4294967296)]) := h1
  have hv : (byteOf (s.length % 4294967296 / 16777216)).val * 16777216
      + (byteOf (s.length % 4294967296 / 65536)).val * 65536
      + (byteOf (s.length % 4294967296 / 256)).val * 256
      + (byteOf (s.length % 4294967296)).val = s.length := by
    show s.length % 4294967296 / 16777216 % 256 * 16777216
      + s.length % 4294967296 / 65536 % 256 * 65536
      + s.length % 4294967296 / 256 % 256 * 256
      + s.length % 4294967296 % 256 = s.length
    omega
  unfold ByteBuf.ReadStringWithU32Length ByteBuf.ReadUInt32BE
  rw [h1']
  simp only [hv]
  exact h2

theorem WriteStringWithByteLength_spec (c : Int) (b : ByteBuf) (s : List Byte) (hc : 0 < c)
    (hcm : c ≤ MaxInt) (hcap : b.capacity = (b.buf.length : Int))
    (hw0 : 0 ≤ b.writerIndex) (hwc : b.writerIndex ≤ b.capacity)
    (hfit : b.writerIndex + (1 + (s.length : Int)) + c ≤ MaxInt)
    (hlen : (s.length : Int) ≤ MaxUint8) :
    ∃ (b2 : ByteBuf) (post : List Byte),
      b.WriteStringWithByteLength c s = some (b2, none) ∧
      b2.buf = b.buf.take b.writerIndex.toNat ++ ([byteOf s.length] ++ s) ++ post ∧
      b2.capacity = (b2.buf.length : Int) ∧
      b2.writerIndex = b.writerIndex + (1 + (s.length : Int)) ∧
      b2.readerIndex = b.readerIndex ∧
      b2.readerMarker = b.readerMarker ∧ b2.writerMarker = b.writerMarker := by
  obtain ⟨b1, b2, post, e1, e2, h⟩ :=
    write_with_header c b [byteOf s.length] s hc hcm hcap hw0 hwc hfit
  refine ⟨b2, post, ?_, h⟩
  unfold ByteBuf.WriteStringWithByteLength ByteBuf.WriteByte
  simp only [gt_iff_lt, if_neg (not_lt.mpr hlen), e1, e2]

theorem WriteStringWithU16Length_spec (c : Int) (b : ByteBuf) (s : List Byte) (hc : 0 < c)
    (hcm : c ≤ MaxInt) (hcap : b.capacity = (b.buf.length : Int))
    (hw0 : 0 ≤ b.writerIndex) (hwc : b.writerIndex ≤ b.capacity)
    (hfit : b.writerIndex + (2 + (s.length : Int)) + c ≤ MaxInt)
    (hlen : (s.length : Int) ≤ MaxUint16) :
    ∃ (b2 : ByteBuf) (post : List Byte),
      b.WriteStringWithU16Length c s = some (b2, none) ∧
      b2.buf = b.buf.take b.writerIndex.toNat
        ++ ([byteOf (s.length % 65536 / 256), byteOf (s.length % 65536)] ++ s) ++ post ∧
      b2.capacity = (b2.buf.length : Int) ∧
      b2.writerIndex = b.writerIndex + (2 + (s.length : Int)) ∧
      b2.readerIndex = b.readerIndex ∧
      b2.readerMarker = b.readerMarker ∧ b2.writerMarker = b.writerMarker := by
  obtain ⟨b1, b2, post, e1, e2, h⟩ :=
    write_with_header c b [byteOf (s.length % 65536 / 256), byteOf (s.length % 65536)] s
      hc hcm hcap hw0 hwc hfit
  refine ⟨b2, post, ?_, h⟩
  unfold ByteBuf.WriteStringWithU16Length ByteBuf.WriteUInt16BE
  simp only [gt_iff_lt, if_neg (not_lt.mpr hlen), e1, e2]

theorem WriteStringWithU32Length_spec (c : Int) (b : ByteBuf) (s : List Byte) (hc : 0 < c)
    (hcm : c ≤ MaxInt) (hcap : b.capacity = (b.buf.length : Int))
    (hw0 : 0 ≤ b.writerIndex) (hwc : b.writerIndex ≤ b.capacity)
    (hfit : b.writerIndex + (4 + (s.length : Int)) + c ≤ MaxInt)
    (hlen : (s.length : Int) ≤ MaxUint32) :
    ∃ (b2 : ByteBuf) (post : List Byte),
      b.WriteStringWithU32Length c s = some (b2, none) ∧
      b2.buf = b.buf.take b.writerIndex.toNat
        ++ ([byteOf (s.length % 4294967296 / 16777216), byteOf (s.length % 4294967296 / 65536),
          byteOf (s.length % 4294967296 / 256), byteOf (s.length % 4294967296)] ++ s) ++ post ∧
      b2.capacity = (b2.buf.length : Int) ∧
      b2.writerIndex = b.writerIndex + (4 + (s.length : Int)) ∧
      b2.readerIndex = b.readerIndex ∧
      b2.readerMarker = b.readerMarker ∧ b2.writerMarker = b.writerMarker := by
  obtain ⟨b1, b2, post, e1, e2, h⟩ :=
    write_with_header c b [byteOf (s.length % 4294967296 / 16777216),
      byteOf (s.length % 4294967296 / 65536), byteOf (s.length % 4294967296 / 256),
      byteOf (s.length % 4294967296)] s hc hcm hcap hw0 hwc hfit
  refine ⟨b2, post, ?_, h⟩
  unfold ByteBuf.WriteStringWithU32Length ByteBuf.WriteUInt32BE
  simp only [gt_iff_lt, if_neg (not_lt.mpr hlen), e1, e2]

theorem length_take_writerIndex (b : ByteBuf) (hw0 : 0 ≤ b.writerIndex)
    (hwl : b.writerIndex ≤ (b.buf.length : Int)) :
    b.writerIndex = ((b.buf.take b.writerIndex.toNat).length : Int) := by
  simp only [List.length_take]
  omega

/-- Round trip of the length-prefixed string codec where the storage has the
length `capacity` of the data model. On such a buffer, with
`0 <= readerIndex = writerIndex <= capacity` and room for the growth within the
range of `int`, for each of the three prefix widths and every byte string `s`
whose length fits the width, the writer returns without error and the matching
reader, run on the state the writer leaves, returns exactly `s`. The hypothesis
on the storage is needed: see `string_codec_round_trip_fails_after_discard`. -/
theorem string_codec_round_trip (chunkSize : Int) (b : ByteBuf) (s : List Byte)
    (hc : 0 < chunkSize) (hcm : chunkSize ≤ MaxInt)
    (hcap : b.capacity = (b.buf.length : Int))
    (hw0 : 0 ≤ b.writerIndex) (hwc : b.writerIndex ≤ b.capacity)
    (hr : b.readerIndex = b.writerIndex)
    (hfit : b.writerIndex + (4 + (s.length : Int)) + chunkSize ≤ MaxInt) :
    ((s.length : Int) ≤ MaxUint8 →
        ∃ b1 b2 : ByteBuf, b.WriteStringWithByteLength chunkSize s = some (b1, none) ∧
          b1.ReadStringWithByteLength = some (b2, s)) ∧
      ((s.length : Int) ≤ MaxUint16 →
        ∃ b1 b2 : ByteBuf, b.WriteStringWithU16Length chunkSize s = some (b1, none) ∧
          b1.ReadStringWithU16Length = some (b2, s)) ∧
      ((s.length : Int) ≤ MaxUint32 →
        ∃ b1 b2 : ByteBuf, b.WriteStringWithU32Length chunkSize s = some (b1, none) ∧
          b1.ReadStringWithU32Length = some (b2, s)) := by
  have hpre := length_take_writerIndex b hw0 (by omega)
  refine ⟨?_, ?_, ?_⟩
  · intro hlen
    obtain ⟨b1, post, e, hbuf, hcap1, hw1, hr1, _, _⟩ :=
      WriteStringWithByteLength_spec chunkSize b s hc hcm hcap hw0 hwc (by omega) hlen
    have hl : (b1.buf.length : Int)
        = b.writerIndex + (1 + (s.length : Int)) + (post.length : Int) := by
      rw [hbuf]
      simp only [List.length_append, List.length_take, List.length_cons, List.length_nil]
      omega
    exact ⟨b1, _, e, ReadStringWithByteLength_spec b1 _ s post hbuf (by omega) (by omega)
      (by omega) (by omega) (by unfold MaxUint8 at hlen; omega)⟩
  · intro hlen
    obtain ⟨b1, post, e, hbuf, hcap1, hw1, hr1, _, _⟩ :=
      WriteStringWithU16Length_spec chunkSize b s hc hcm hcap hw0 hwc (by omega) hlen
    have hl : (b1.buf.length : Int)
        = b.writerIndex + (2 + (s.length : Int)) + (post.length : Int) := by
      rw [hbuf]
      simp only [List.length_append, List.length_take, List.length_cons, List.length_nil]
      omega
    exact ⟨b1, _, e, ReadStringWithU16Length_spec b1 _ s post hbuf (by omega) (by omega)
      (by omega) (by omega) (by unfold MaxUint16 at hlen; omega)⟩
  · intro hlen
    obtain ⟨b1, post, e, hbuf, hcap1, hw1, hr1, _, _⟩ :=
      WriteStringWithU32Length_spec chunkSize b s hc hcm hcap hw0 hwc (by omega) hlen
    have hl : (b1.buf.length : Int)
        = b.writerIndex + (4 + (s.length : Int)) + (post.length : Int) := by
      rw [hbuf]
      simp only [List.length_append, List.length_take, List.length_cons, List.length_nil]
      omega
    exact ⟨b1, _, e, ReadStringWithU32Length_spec b1 _ s post hbuf (by omega) (by omega)
      (by omega) (by omega) (by unfold MaxUint32 at hlen; omega)⟩

/-- The round trip at the input of `Test_Read`: the 21-byte string, the 8-bit
width, a new buffer and the default chunk size. -/
theorem string_codec_round_trip_witness :
    ∃ b1 b2 : ByteBuf, NewByteBuf.WriteStringWithByteLength ChunkSize testStr = some (b1, none) ∧
      b1.ReadStringWithByteLength = some (b2, testStr) :=
  (string_codec_round_trip ChunkSize NewByteBuf testStr (by decide) (by decide) (by decide)
    (by decide) (by decide) (by decide) (by decide)).1 (by decide)

set_option maxRecDepth 100000 in
/-- The run of `Test_Read` prints the string it wrote. -/
theorem Test_Read_eval : Test_Read = some testStr := by decide

set_option maxRecDepth 100000 in
/-- C6, the code at the failing input. With chunk size 4: a new buffer,
`WriteStringWithByteLength("abc")`, `ReadStringWithByteLength()` and
`DiscardReadBytes()` leave the storage `[]` with `capacity` still 4 and
`readerIndex = writerIndex = 0`, a buffer with no unread bytes. On it
`EnsureWritable` finds room within the stale capacity and does not grow, so the
write of the length byte goes past the storage: each of the three writers
panics on "abc" and nothing is read back. With the default chunk size the same
three calls leave 1020 bytes of storage with `capacity` 1024, and
`WriteStringWithU16Length` panics on a string of 1021 bytes. -/
theorem string_codec_round_trip_fails_after_discard :
    NewByteBuf.WriteStringWithByteLength 4 [97, 98, 99]
        = some (ByteBuf.mk [3, 97, 98, 99] 4 0 0 4 0, none) ∧
      (ByteBuf.mk [3, 97, 98, 99] 4 0 0 4 0).ReadStringWithByteLength
        = some (ByteBuf.mk [3, 97, 98, 99] 4 4 0 4 0, [97, 98, 99]) ∧
      (ByteBuf.mk [3, 97, 98, 99] 4 4 0 4 0).DiscardReadBytes
        = some (ByteBuf.mk [] 4 0 0 0 0) ∧
      (ByteBuf.mk [] 4 0 0 0 0).readerIndex = (ByteBuf.mk [] 4 0 0 0 0).writerIndex ∧
      (ByteBuf.mk [] 4 0 0 0 0).EnsureWritable 4 1 = some (ByteBuf.mk [] 4 0 0 0 0) ∧
      (ByteBuf.mk [] 4 0 0 0 0).WriteStringWithByteLength 4 [97, 98, 99] = none ∧
      (ByteBuf.mk [] 4 0 0 0 0).WriteStringWithU16Length 4 [97, 98, 99] = none ∧
      (ByteBuf.mk [] 4 0 0 0 0).WriteStringWithU32Length 4 [97, 98, 99] = none ∧
      ((((NewByteBuf.WriteStringWithByteLength ChunkSize [97, 98, 99]).bind
            (fun r1 => r1.1.ReadStringWithByteLength)).bind
            (fun r2 => r2.1.DiscardReadBytes)).map
          (fun b3 => (b3.buf.length, b3.capacity, b3.readerIndex, b3.writerIndex,
            (b3.WriteStringWithU16Length ChunkSize (List.replicate 1021 0)).isNone)))
        = some (1020, 1024, 0, 0, true) := by
  refine ⟨by decide, by decide, by decide, by decide, by decide, by decide, by decide,
    by decide, by decide⟩

/-- C7: each length-prefixed string writer returns its length-overflow error,
with the whole state (storage, capacity, cursors, markers) unchanged, when the
byte length exceeds the prefix maximum; when the length is within the maximum
every returning call returns the `nil` error, and it does return on a buffer
whose storage has length `capacity >= writerIndex >= 0` with room for the
growth. -/
theorem string_writers_fail_iff_too_long (chunkSize : Int) (b : ByteBuf) (s : List Byte) :
    ((s.length : Int) > MaxUint8 →
        b.WriteStringWithByteLength chunkSize s = some (b, some "str length exceed MaxUint8")) ∧
      ((s.length : Int) > MaxUint16 →
        b.WriteStringWithU16Length chunkSize s = some (b, some "str length exceed MaxUint16")) ∧
      ((s.length : Int) > MaxUint32 →
        b.WriteStringWithU32Length chunkSize s = some (b, some "str length exceed MaxUint32")) ∧
      ((s.length : Int) ≤ MaxUint8 → ∀ r : ByteBuf × Option String,
        b.WriteStringWithByteLength chunkSize s = some r → r.2 = none) ∧
      ((s.length : Int) ≤ MaxUint16 → ∀ r : ByteBuf × Option String,
        b.WriteStringWithU16Length chunkSize s = some r → r.2 = none) ∧
      ((s.length : Int) ≤ MaxUint32 → ∀ r : ByteBuf × Option String,
        b.WriteStringWithU32Length chunkSize s = some r → r.2 = none) ∧
      (0 < chunkSize → chunkSize ≤ MaxInt → b.capacity = (b.buf.length : Int) →
        0 ≤ b.writerIndex → b.writerIndex ≤ b.capacity →
        b.writerIndex + (4 + (s.length : Int)) + chunkSize ≤ MaxInt →
        ((s.length : Int) ≤ MaxUint8 →
          ∃ b1 : ByteBuf, b.WriteStringWithByteLength chunkSize s = some (b1, none)) ∧
        ((s.length : Int) ≤ MaxUint16 →
          ∃ b1 : ByteBuf, b.WriteStringWithU16Length chunkSize s = some (b1, none)) ∧
        ((s.length : Int) ≤ MaxUint32 →
          ∃ b1 : ByteBuf, b.WriteStringWithU32Length chunkSize s = some (b1, none))) := by
  refine ⟨?_, ?_, ?_, ?_, ?_, ?_, ?_⟩
  · intro h
    unfold ByteBuf.WriteStringWithByteLength
    simp only [if_pos h]
  · intro h
    unfold ByteBuf.WriteStringWithU16Length
    simp only [if_pos h]
  · intro h
    unfold ByteBuf.WriteStringWithU32Length
    simp only [if_pos h]
  · intro h r
    unfold ByteBuf.WriteStringWithByteLength
    simp only [gt_iff_lt, if_neg (not_lt.mpr h)]
    intro e
    split at e
    · cases e
    · split at e
      · cases e
      · cases e
        rfl
  · intro h r
    unfold ByteBuf.WriteStringWithU16Length
    simp only [gt_iff_lt, if_neg (not_lt.mpr h)]
    intro e
    split at e
    · cases e
    · split at e
      · cases e
      · cases e
        rfl
  · intro h r
    unfold ByteBuf.WriteStringWithU32Length
    simp only [gt_iff_lt, if_neg (not_lt.mpr h)]
    intro e
    split at e
    · cases e
    · split at e
      · cases e
      · cases e
        rfl
  · intro hc hcm hcap hw0 hwc hfit
    refine ⟨?_, ?_, ?_⟩
    · intro h
      obtain ⟨b1, _, e, _⟩ :=
        WriteStringWithByteLength_spec chunkSize b s hc hcm hcap hw0 hwc (by omega) h
      exact ⟨b1, e⟩
    · intro h
      obtain ⟨b1, _, e, _⟩ :=
        WriteStringWithU16Length_spec chunkSize b s hc hcm hcap hw0 hwc (by omega) h
      exact ⟨b1, e⟩
    · intro h
      obtain ⟨b1, _, e, _⟩ :=
        WriteStringWithU32Length_spec chunkSize b s hc hcm hcap hw0 hwc (by omega) h
      exact ⟨b1, e⟩

/-- C7 at a 256-byte string on the zero-value buffer: the 8-bit writer returns
the overflow error and leaves the buffer as it was, while the 16-bit writer
accepts the same string. -/
theorem string_writers_fail_iff_too_long_witness :
    ByteBuf.zero.WriteStringWithByteLength ChunkSize (List.replicate 256 0)
        = some (ByteBuf.zero, some "str length exceed MaxUint8") ∧
      ∃ b1 : ByteBuf,
        ByteBuf.zero.WriteStringWithU16Length ChunkSize (List.replicate 256 0) = some (b1, none) :=
  ⟨(string_writers_fail_iff_too_long ChunkSize ByteBuf.zero (List.replicate 256 0)).1
      (by rw [List.length_replicate]; decide),
    ((string_writers_fail_iff_too_long ChunkSize ByteBuf.zero
      (List.replicate 256 0)).2.2.2.2.2.2 (by decide) (by decide) (by decide) (by decide)
      (by decide) (by rw [List.length_replicate]; decide)).2.1
      (by rw [List.length_replicate]; decide)⟩

theorem WriteStringWithByteLength_nil (c : Int) (b : ByteBuf) :
    b.WriteStringWithByteLength c []
      = (b.WriteByte c (byteOf 0)).map (fun b1 => (b1, none)) := by
  unfold ByteBuf.WriteStringWithByteLength
  have h : ¬ (((([] : List Byte).length : Nat) : Int) > MaxUint8) := by decide
  simp only [if_neg h, List.length_nil]
  cases b.WriteByte c (byteOf 0) with
  | none => rfl
  | some b1 => rfl

set_option maxRecDepth 100000 in
/-- Wire format of the 8-bit writer where the storage has the length `capacity`
of the data model (the hypothesis is needed: see
`WriteStringWithByteLength_panics_after_discard`). From a new buffer with the
default chunk size, `WriteStringWithByteLength("abc")` leaves the bytes `[3, 'a', 'b',
'c']` at the front of the storage (the rest of the 1024-byte chunk is zero) and
`writerIndex = 4`; the following read returns "abc" and advances `readerIndex`
by 4. In general, for a string `s` of `n <= 255` bytes the write keeps the bytes
below the old `writerIndex`, stores the byte `n` there followed by the `n` bytes
of `s`, and advances `writerIndex` by `1 + n`; for the empty string the state
is the one `WriteByte(0)` alone leaves, `writeString` making no raw write; and
the read of such an encoding at `readerIndex` returns `s` and advances
`readerIndex` by `1 + n`. -/
theorem WriteStringWithByteLength_wire_format (chunkSize : Int) (b : ByteBuf) (s : List Byte)
    (hc : 0 < chunkSize) (hcm : chunkSize ≤ MaxInt)
    (hcap : b.capacity = (b.buf.length : Int))
    (hw0 : 0 ≤ b.writerIndex) (hwc : b.writerIndex ≤ b.capacity)
    (hfit : b.writerIndex + (1 + (s.length : Int)) + chunkSize ≤ MaxInt)
    (hlen : (s.length : Int) ≤ MaxUint8) :
    (∃ b1 b2 : ByteBuf,
        NewByteBuf.WriteStringWithByteLength ChunkSize [97, 98, 99] = some (b1, none) ∧
        b1.buf = [3, 97, 98, 99] ++ List.replicate 1020 0 ∧ b1.writerIndex = 4 ∧
        b1.ReadStringWithByteLength = some (b2, [97, 98, 99]) ∧
        b2.readerIndex = b1.readerIndex + 4) ∧
      (∃ (b1 : ByteBuf) (post : List Byte),
        b.WriteStringWithByteLength chunkSize s = some (b1, none) ∧
        b1.buf = b.buf.take b.writerIndex.toNat ++ (byteOf s.length :: s) ++ post ∧
        b1.writerIndex = b.writerIndex + (1 + (s.length : Int)) ∧
        b1.readerIndex = b.readerIndex ∧
        (s = [] → b.WriteByte chunkSize (byteOf 0) = some b1) ∧
        (b.readerIndex = b.writerIndex →
          ∃ b2 : ByteBuf, b1.ReadStringWithByteLength = some (b2, s) ∧
            b2.readerIndex = b1.readerIndex + (1 + (s.length : Int)))) ∧
      b.writeString chunkSize [] = some b ∧
      (∀ (b3 : ByteBuf) (pre post : List Byte),
        b3.buf = pre ++ (byteOf s.length :: s) ++ post →
        b3.readerIndex = (pre.length : Int) →
        b3.readerIndex + (1 + (s.length : Int)) ≤ b3.writerIndex →
        b3.writerIndex ≤ (b3.buf.length : Int) → b3.writerIndex ≤ MaxInt →
        ∃ b4 : ByteBuf, b3.ReadStringWithByteLength = some (b4, s) ∧
          b4.readerIndex = b3.readerIndex + (1 + (s.length : Int))) := by
  have hn : s.length ≤ 255 := by unfold MaxUint8 at hlen; omega
  refine ⟨?_, ?_, ?_, ?_⟩
  · refine ⟨_, _, rfl, ?_, rfl, rfl, rfl⟩
    decide
  · obtain ⟨b1, post, e, hbuf, hcap1, hw1, hr1, _, _⟩ :=
      WriteStringWithByteLength_spec chunkSize b s hc hcm hcap hw0 hwc hfit hlen
    refine ⟨b1, post, e, hbuf, hw1, hr1, ?_, ?_⟩
    · intro hs
      subst hs
      rw [WriteStringWithByteLength_nil] at e
      cases h : b.WriteByte chunkSize (byteOf 0) with
      | none => rw [h] at e; cases e
      | some b0 => rw [h] at e; cases e; rfl
    · intro hr
      have hpre := length_take_writerIndex b hw0 (by omega)
      have hl : (b1.buf.length : Int)
          = b.writerIndex + (1 + (s.length : Int)) + (post.length : Int) := by
        rw [hbuf]
        simp only [List.length_append, List.length_take, List.length_cons, List.length_nil]
        omega
      exact ⟨_, ReadStringWithByteLength_spec b1 _ s post hbuf (by omega) (by omega)
        (by omega) (by omega) hn, rfl⟩
  · unfold ByteBuf.writeString
    rfl
  · intro b3 pre post hbuf hr hrw hwl hw
    exact ⟨_, ReadStringWithByteLength_spec b3 pre s post hbuf hr hrw hwl hw hn, rfl⟩

/-- The wire format at the string "abc" on a buffer that already holds two read
bytes, with chunk size 4: the three bytes go behind the prefix byte 3 at
index 2. -/
theorem WriteStringWithByteLength_wire_format_witness :
    ∃ (b1 : ByteBuf) (post : List Byte),
      (ByteBuf.mk [7, 8, 0, 0] 4 2 0 2 0).WriteStringWithByteLength 4 [97, 98, 99]
        = some (b1, none) ∧
      b1.buf = [7, 8] ++ (3 :: [97, 98, 99]) ++ post ∧ b1.writerIndex = 6 ∧
      ∃ b2 : ByteBuf, b1.ReadStringWithByteLength = some (b2, [97, 98, 99]) ∧
        b2.readerIndex = 6 := by
  obtain ⟨b1, post, e, hbuf, hw, hr, _, hread⟩ :=
    (WriteStringWithByteLength_wire_format 4 (ByteBuf.mk [7, 8, 0, 0] 4 2 0 2 0) [97, 98, 99]
      (by decide) (by decide) (by decide) (by decide) (by decide) (by decide) (by decide)).2.1
  obtain ⟨b2, e2, hr2⟩ := hread rfl
  refine ⟨b1, post, e, hbuf, hw, b2, e2, ?_⟩
  rw [hr2, hr]
  rfl

set_option maxRecDepth 100000 in
/-- C8, the code at the failing input. With chunk size 4: after a new buffer,
`WriteStringWithByteLength("abc")`, `SkipBytes(4)` and `DiscardReadBytes()` the
storage is `[]`, `capacity` is still 4 and `writerIndex` is 0. On it
`WriteStringWithByteLength("")` panics in the write of the length byte, and so
does `WriteStringWithByteLength("abc")`: no byte is stored at the old
`writerIndex` and `writerIndex` does not advance. With the default chunk size
the same calls leave 1020 bytes of storage with `capacity` 1024; three strings
of 255 bytes are written, and the fourth write panics at `writerIndex = 768`. -/
theorem WriteStringWithByteLength_panics_after_discard :
    NewByteBuf.WriteStringWithByteLength 4 [97, 98, 99]
        = some (ByteBuf.mk [3, 97, 98, 99] 4 0 0 4 0, none) ∧
      ((ByteBuf.mk [3, 97, 98, 99] 4 0 0 4 0).SkipBytes 4).DiscardReadBytes
        = some (ByteBuf.mk [] 4 0 0 0 0) ∧
      (ByteBuf.mk [] 4 0 0 0 0).WriteByte 4 (byteOf 0) = none ∧
      (ByteBuf.mk [] 4 0 0 0 0).WriteStringWithByteLength 4 [] = none ∧
      (ByteBuf.mk [] 4 0 0 0 0).WriteStringWithByteLength 4 [97, 98, 99] = none ∧
      ((((((NewByteBuf.WriteStringWithByteLength ChunkSize [97, 98, 99]).bind
            (fun r1 => (r1.1.SkipBytes 4).DiscardReadBytes)).bind
            (fun b3 => b3.WriteStringWithByteLength ChunkSize (List.replicate 255 0))).bind
            (fun r4 => r4.1.WriteStringWithByteLength ChunkSize (List.replicate 255 0))).bind
            (fun r5 => r5.1.WriteStringWithByteLength ChunkSize (List.replicate 255 0))).map
          (fun r6 => (r6.1.buf.length, r6.1.capacity, r6.1.writerIndex,
            (r6.1.WriteStringWithByteLength ChunkSize (List.replicate 255 0)).isNone)))
        = some (1020, 1024, 768, true) := by
  refine ⟨by decide, by decide, by decide, by decide, by decide, by decide⟩

/-- C9: `DiscardReadBytes` compacts without losing unread data. With
`0 <= readerIndex <= writerIndex <= len(storage)` the call returns; the storage
becomes the old `storage[readerIndex:]`, `readerIndex` becomes 0, `writerIndex`
becomes the old `writerIndex - readerIndex`, the readable region
`storage[readerIndex:writerIndex]` is the one before the call, and reading
`writerIndex - readerIndex` bytes yields the same bytes before and after. -/
theorem DiscardReadBytes_compacts (b : ByteBuf)
    (hr0 : 0 ≤ b.readerIndex) (hrw : b.readerIndex ≤ b.writerIndex)
    (hwl : b.writerIndex ≤ (b.buf.length : Int)) (hw : b.writerIndex ≤ MaxInt) :
    ∃ b1 : ByteBuf, b.DiscardReadBytes = some b1 ∧
      b1.buf = b.buf.drop b.readerIndex.toNat ∧
      b1.readerIndex = 0 ∧
      b1.writerIndex = b.writerIndex - b.readerIndex ∧
      b1.readable = b.readable ∧
      (b1.readN (b.writerIndex - b.readerIndex).toNat).map Prod.snd = some b.readable ∧
      (b.readN (b.writerIndex - b.readerIndex).toNat).map Prod.snd = some b.readable := by
  have hsub : subInt b.writerIndex b.readerIndex = b.writerIndex - b.readerIndex :=
    wrapInt_of_range _ (by unfold MinInt; omega) (by omega)
  unfold ByteBuf.DiscardReadBytes sliceFrom
  simp only [if_pos (show 0 ≤ b.readerIndex ∧ b.readerIndex ≤ (b.buf.length : Int) from
    ⟨hr0, by omega⟩), hsub]
  refine ⟨_, rfl, rfl, rfl, rfl, ?_, ?_, ?_⟩
  · unfold ByteBuf.readable
    simp
  · unfold ByteBuf.readN ByteBuf.readable
    have h1 : (0 : Int) ≤ 0 ∧ (0 : Int) + (((b.writerIndex - b.readerIndex).toNat : Nat) : Int)
        ≤ b.writerIndex - b.readerIndex ∧
        b.writerIndex - b.readerIndex ≤ ((b.buf.drop b.readerIndex.toNat).length : Int) := by
      simp only [List.length_drop]
      omega
    simp only [if_pos h1]
    simp
  · unfold ByteBuf.readN ByteBuf.readable
    have h1 : 0 ≤ b.readerIndex ∧ b.readerIndex
        + (((b.writerIndex - b.readerIndex).toNat : Nat) : Int) ≤ b.writerIndex ∧
        b.writerIndex ≤ (b.buf.length : Int) := by omega
    simp only [if_pos h1]
    simp

/-- C9 on a four-byte buffer with two bytes read and two unread. -/
theorem DiscardReadBytes_compacts_witness :
    ∃ b1 : ByteBuf, (ByteBuf.mk [1, 2, 3, 4] 4 2 0 4 0).DiscardReadBytes = some b1 ∧
      b1.buf = [3, 4] ∧ b1.readerIndex = 0 ∧ b1.writerIndex = 2 ∧ b1.readable = [3, 4] := by
  obtain ⟨b1, e, h1, h2, h3, h4, _⟩ :=
    DiscardReadBytes_compacts (ByteBuf.mk [1, 2, 3, 4] 4 2 0 4 0)
      (by decide) (by decide) (by decide) (by decide)
  exact ⟨b1, e, by rw [h1]; rfl, h2, by rw [h3]; rfl, by rw [h4]; rfl⟩

/-- C10, the code at the failing input: on the buffer `[1, 2, 3, 4]` with
capacity 4, two bytes read and two unread, `DiscardReadBytes` keeps two bytes of
storage and leaves `capacity` at 4. -/
theorem DiscardReadBytes_leaves_capacity_stale :
    (ByteBuf.mk [1, 2, 3, 4] 4 2 0 4 0).DiscardReadBytes = some (ByteBuf.mk [3, 4] 4 0 0 2 0) ∧
      (ByteBuf.mk [3, 4] 4 0 0 2 0).capacity
        ≠ (((ByteBuf.mk [3, 4] 4 0 0 2 0).buf.length : Nat) : Int) := by
  decide

/-! ## Duplication and search -/

/-- C11: for every buffer `b`, `Copy()` returns a buffer `c` with
`b.Equal(c) = true`, whose storage has the length and the bytes of `b`'s and
whose `capacity`, `readerIndex`, `readerMarker`, `writerIndex` and
`writerMarker` are `b`'s; the receiver after the call is `b`. -/
theorem Copy_equal_and_same_fields (b : ByteBuf) :
    ∃ c : ByteBuf, b.Copy = some (b, c) ∧ b.Equal c = true ∧
      c.buf.length = b.buf.length ∧ c.buf = b.buf ∧
      c.capacity = b.capacity ∧ c.readerIndex = b.readerIndex ∧
      c.readerMarker = b.readerMarker ∧ c.writerIndex = b.writerIndex ∧
      c.writerMarker = b.writerMarker := by
  have hcopy : copy (List.replicate b.buf.length 0) b.buf = b.buf := by
    rw [copy_replicate_of_le _ _ (le_refl _)]
    simp
  have hmake : make (b.buf.length : Int) = some (List.replicate b.buf.length 0) := by
    unfold make
    rw [if_neg (by omega)]
    simp
  unfold ByteBuf.Copy
  rw [hmake]
  refine ⟨_, rfl, ?_, ?_, hcopy, rfl, rfl, rfl, rfl, rfl⟩
  · unfold ByteBuf.Equal bytesEqual
    simp only [hcopy, decide_True]
  · show (copy _ _).length = _
    rw [hcopy]

/-- C12: `Index` answers `-1` for invalid explicit bounds: with two bounds
unless `end > start`, `end < capacity` and `start > 0`; with one bound unless
`0 < start < capacity`; in particular `Index(p, 0)` is `-1` for every pattern
and every buffer. The state is unchanged. -/
theorem Index_rejects_invalid_bounds (b : ByteBuf) (p : List Byte) (s e : Int)
    (rest : List Int) :
    (¬ (e > s ∧ e < b.capacity ∧ s > 0) → b.Index p (s :: e :: rest) = some (b, -1)) ∧
      (¬ (0 < s ∧ s < b.capacity) → b.Index p [s] = some (b, -1)) ∧
      b.Index p [0] = some (b, -1) := by
  refine ⟨?_, ?_, ?_⟩
  · intro h
    unfold ByteBuf.Index
    have h2 : (s :: e :: rest).length ≥ 2 := by simp
    rw [if_pos h2]
    exact if_neg h
  · intro h
    unfold ByteBuf.Index
    have h2 : ¬ (([s] : List Int).length ≥ 2) := by simp
    have h1 : ([s] : List Int).length ≥ 1 := by simp
    rw [if_neg h2, if_pos h1]
    have h' : ¬ (([s] : List Int).getD 0 0 > 0 ∧ ([s] : List Int).getD 0 0 < b.capacity) := h
    exact if_neg h'
  · unfold ByteBuf.Index
    have h2 : ¬ (([0] : List Int).length ≥ 2) := by simp
    have h1 : ([0] : List Int).length ≥ 1 := by simp
    rw [if_neg h2, if_pos h1]
    have h' : ¬ (([0] : List Int).getD 0 0 > 0 ∧ ([0] : List Int).getD 0 0 < b.capacity) := by
      intro h
      exact absurd h.1 (by decide)
    exact if_neg h'

/-- C12 at the buffer "abc" and the pattern "bc": `Index(p, 0)` is `-1`
although the search without bounds finds the pattern at offset 1. -/
theorem Index_rejects_invalid_bounds_witness :
    (ByteBuf.mk [97, 98, 99] 3 0 0 3 0).Index [98, 99] [0]
        = some (ByteBuf.mk [97, 98, 99] 3 0 0 3 0, -1) ∧
      (ByteBuf.mk [97, 98, 99] 3 0 0 3 0).Index [98, 99] []
        = some (ByteBuf.mk [97, 98, 99] 3 0 0 3 0, 1) ∧
      (ByteBuf.mk [97, 98, 99] 3 0 0 3 0).Index [98, 99] [2, 1]
        = some (ByteBuf.mk [97, 98, 99] 3 0 0 3 0, -1) :=
  ⟨(Index_rejects_invalid_bounds (ByteBuf.mk [97, 98, 99] 3 0 0 3 0) [98, 99] 0 0 []).2.2,
    by decide,
    (Index_rejects_invalid_bounds (ByteBuf.mk [97, 98, 99] 3 0 0 3 0) [98, 99] 2 1 []).1
      (by decide)⟩

theorem occursAt_zero (t p : List Byte) : OccursAt t p 0 ↔ t.take p.length = p := by
  unfold OccursAt
  constructor
  · intro h
    exact h.2
  · intro h
    refine ⟨?_, h⟩
    have := congrArg List.length h
    simp only [List.length_take] at this
    omega

theorem occursAt_cons_succ (x : Byte) (xs p : List Byte) (j : Nat) :
    OccursAt (x :: xs) p (j + 1) ↔ OccursAt xs p j := by
  unfold OccursAt
  simp only [List.length_cons, List.drop_succ_cons]
  constructor
  · intro h
    exact ⟨by omega, h.2⟩
  · intro h
    exact ⟨by omega, h.2⟩

theorem bytesIndexFrom_spec (sep : List Byte) :
    ∀ (s : List Byte) (i : Nat),
      (bytesIndexFrom sep s i = -1 ∧ ∀ j : Nat, ¬ OccursAt s sep j) ∨
        ∃ k : Nat, bytesIndexFrom sep s i = ((i + k : Nat) : Int) ∧ OccursAt s sep k ∧
          ∀ j : Nat, j < k → ¬ OccursAt s sep j := by
  intro s
  induction s with
  | nil =>
    intro i
    unfold bytesIndexFrom
    by_cases h : sep = []
    · right
      refine ⟨0, by simp [h], ?_, fun j hj => absurd hj (by omega)⟩
      subst h
      exact ⟨by simp, by simp⟩
    · left
      refine ⟨by simp [h], ?_⟩
      intro j hj
      have h1 := hj.1
      simp only [List.length_nil] at h1
      exact h (List.length_eq_zero.mp (by omega))
  | cons x xs ih =>
    intro i
    unfold bytesIndexFrom
    by_cases h : (x :: xs).take sep.length = sep
    · right
      refine ⟨0, by simp [h], (occursAt_zero _ _).mpr h, fun j hj => absurd hj (by omega)⟩
    · rw [if_neg h]
      rcases ih (i + 1) with ⟨h1, h2⟩ | ⟨k, h1, h2, h3⟩
      · left
        refine ⟨h1, ?_⟩
        intro j
        cases j with
        | zero => exact fun hj => h ((occursAt_zero _ _).mp hj)
        | succ j => exact fun hj => h2 j ((occursAt_cons_succ x xs sep j).mp hj)
      · right
        refine ⟨k + 1, ?_, (occursAt_cons_succ x xs sep k).mpr h2, ?_⟩
        · rw [h1]
          congr 1
          omega
        · intro j hj
          cases j with
          | zero => exact fun hj => h ((occursAt_zero _ _).mp hj)
          | succ j => exact fun hj2 => h3 j (by omega) ((occursAt_cons_succ x xs sep j).mp hj2)

theorem bytesIndex_isFirstIndex (t p : List Byte) : IsFirstIndex t p (bytesIndex t p) := by
  unfold IsFirstIndex bytesIndex
  rcases bytesIndexFrom_spec p t 0 with ⟨h1, h2⟩ | ⟨k, h1, h2, h3⟩
  · rw [h1]
    refine ⟨Or.inl rfl, fun h => absurd h (by decide), fun _ => h2, fun _ => rfl⟩
  · rw [h1]
    simp only [Nat.zero_add, Int.toNat_ofNat]
    refine ⟨Or.inr (by omega), fun _ => ⟨h2, h3⟩, ?_⟩
    constructor
    · intro h
      omega
    · intro h
      exact absurd h2 (h k)

/-- C13: `Index` returns the first occurrence relative to the slice searched.
Without bounds the slice is the whole storage, whatever the cursors; on a
buffer whose storage has length `capacity`, with one valid bound it is
`storage[start:]` and with two valid bounds `storage[start:end]`. The call
returns, leaves the state unchanged, and its result `i` satisfies: `i >= 0`
means the pattern occurs at offset `i` of the slice and at no smaller offset,
and `i = -1` exactly when the pattern occurs nowhere in the slice. -/
theorem Index_first_occurrence (b : ByteBuf) (p : List Byte) (s e : Int) (rest : List Int)
    (hcap : b.capacity = (b.buf.length : Int)) :
    (∃ i : Int, b.Index p [] = some (b, i) ∧ IsFirstIndex b.buf p i) ∧
      (0 < s → s < b.capacity →
        ∃ i : Int, b.Index p [s] = some (b, i) ∧ IsFirstIndex (b.buf.drop s.toNat) p i) ∧
      (e > s → e < b.capacity → s > 0 →
        ∃ i : Int, b.Index p (s :: e :: rest) = some (b, i) ∧
          IsFirstIndex ((b.buf.drop s.toNat).take (e - s).toNat) p i) := by
  refine ⟨?_, ?_, ?_⟩
  · refine ⟨bytesIndex b.buf p, ?_, bytesIndex_isFirstIndex _ _⟩
    unfold ByteBuf.Index
    have h2 : ¬ (([] : List Int).length ≥ 2) := by simp
    have h1 : ¬ (([] : List Int).length ≥ 1) := by simp
    rw [if_neg h2, if_neg h1]
  · intro hs1 hs2
    refine ⟨bytesIndex (b.buf.drop s.toNat) p, ?_, bytesIndex_isFirstIndex _ _⟩
    unfold ByteBuf.Index
    have h2 : ¬ (([s] : List Int).length ≥ 2) := by simp
    have h1 : ([s] : List Int).length ≥ 1 := by simp
    have hg : ([s] : List Int).getD 0 0 > 0 ∧ ([s] : List Int).getD 0 0 < b.capacity :=
      ⟨hs1, hs2⟩
    have hsl : sliceFrom b.buf (([s] : List Int).getD 0 0) = some (b.buf.drop s.toNat) := by
      unfold sliceFrom
      exact if_pos ⟨le_of_lt hs1, by show s ≤ _; omega⟩
    rw [if_neg h2, if_pos h1, if_pos hg, hsl]
  · intro h1 h2 h3
    refine ⟨bytesIndex ((b.buf.drop s.toNat).take (e - s).toNat) p, ?_,
      bytesIndex_isFirstIndex _ _⟩
    unfold ByteBuf.Index
    have hl : (s :: e :: rest).length ≥ 2 := by simp
    have hg : (s :: e :: rest).getD 1 0 > (s :: e :: rest).getD 0 0
        ∧ (s :: e :: rest).getD 1 0 < b.capacity ∧ (s :: e :: rest).getD 0 0 > 0 :=
      ⟨h1, h2, h3⟩
    have hsl : sliceRange b.buf ((s :: e :: rest).getD 0 0) ((s :: e :: rest).getD 1 0)
        = some ((b.buf.drop s.toNat).take (e - s).toNat) := by
      unfold sliceRange
      exact if_pos ⟨le_of_lt h3, le_of_lt h1, by show e ≤ _; omega⟩
    rw [if_pos hl, if_pos hg, hsl]

/-- C13 on the buffer `[1, 2, 3, 4]` with both cursors at 2 (an empty readable
region): the search without bounds finds `[1, 2]` at offset 0, and the search
in `storage[1:3]` finds `[3]` at offset 1 of the slice. -/
theorem Index_first_occurrence_witness :
    (ByteBuf.mk [1, 2, 3, 4] 4 2 0 2 0).Index [1, 2] []
        = some (ByteBuf.mk [1, 2, 3, 4] 4 2 0 2 0, 0) ∧
      ∃ i : Int, (ByteBuf.mk [1, 2, 3, 4] 4 2 0 2 0).Index [3] [1, 3]
          = some (ByteBuf.mk [1, 2, 3, 4] 4 2 0 2 0, i) ∧
        IsFirstIndex [2, 3] [3] i ∧ i = 1 := by
  obtain ⟨i, h1, h2⟩ := (Index_first_occurrence (ByteBuf.mk [1, 2, 3, 4] 4 2 0 2 0) [3] 1 3 []
    (by decide)).2.2 (by decide) (by decide) (by decide)
  refine ⟨by decide, i, h1, h2, ?_⟩
  have h3 : (ByteBuf.mk [1, 2, 3, 4] 4 2 0 2 0).Index [3] [1, 3]
      = some (ByteBuf.mk [1, 2, 3, 4] 4 2 0 2 0, 1) := by decide
  rw [h3] at h1
  cases h1
  rfl

/-! ## Iteration -/

theorem indicesFrom_zero (start : Int) : indicesFrom start 0 = [] := rfl

theorem indicesFrom_succ (start : Int) (m : Nat) :
    indicesFrom start (m + 1) = start :: indicesFrom (start + 1) m := by
  unfold indicesFrom
  rw [List.range_succ_eq_map, List.map_cons, List.map_map]
  congr 1
  · simp
  · apply List.map_congr_left
    intro j _
    simp only [Function.comp_apply, Nat.succ_eq_add_one, Nat.cast_add, Nat.cast_one]
    omega

theorem indexAt_of_lt (buf : List Byte) (i : Int) (h0 : 0 ≤ i) (h1 : i < (buf.length : Int)) :
    ∃ v : Byte, indexAt buf i = some v ∧ buf.drop i.toNat = v :: buf.drop (i.toNat + 1) := by
  have hlt : i.toNat < buf.length := by omega
  refine ⟨buf[i.toNat], ?_, List.drop_eq_getElem_cons hlt⟩
  unfold indexAt
  rw [if_pos ⟨h0, h1⟩]
  exact List.getElem?_eq_getElem hlt

theorem forEachLoop_spec (iterator : Byte → Bool) (buf : List Byte) :
    ∀ (n : Nat) (start count : Int) (visited : List Int),
      0 ≤ start → start + (n : Int) ≤ (buf.length : Int) → start + (n : Int) ≤ MaxInt →
      MinInt ≤ count → count + (n : Int) ≤ MaxInt →
      forEachLoop iterator buf n start count visited
        = some (count + ((((buf.drop start.toNat).take n).takeWhile iterator).length : Int),
            visited ++ indicesFrom start
              (if (((buf.drop start.toNat).take n).takeWhile iterator).length < n
                then (((buf.drop start.toNat).take n).takeWhile iterator).length + 1
                else (((buf.drop start.toNat).take n).takeWhile iterator).length)) := by
  intro n
  induction n with
  | zero =>
    intro start count visited _ _ _ _ _
    simp [forEachLoop, indicesFrom_zero]
  | succ n ih =>
    intro start count visited h0 h1 h2 h3 h4
    obtain ⟨v, hv, hd⟩ := indexAt_of_lt buf start h0 (by omega)
    have hs : addInt start 1 = start + 1 :=
      wrapInt_of_range _ (by unfold MinInt; omega) (by omega)
    have hc : addInt count 1 = count + 1 :=
      wrapInt_of_range _ (by omega) (by omega)
    have hst : (start + 1).toNat = start.toNat + 1 := by omega
    unfold forEachLoop
    rw [hv, hd]
    simp only [List.take_succ_cons]
    by_cases hit : iterator v = true
    · simp only [hit, if_true, List.takeWhile_cons_of_pos, List.length_cons, hs, hc]
      rw [ih (start + 1) (count + 1) (visited ++ [start]) (by omega)
        (by push_cast at h1 ⊢; omega) (by push_cast at h2 ⊢; omega) (by omega)
        (by push_cast at h4 ⊢; omega), hst]
      simp only [Nat.add_lt_add_iff_right]
      congr 1
      refine Prod.ext ?_ ?_
      · simp only [Nat.cast_add, Nat.cast_one]
        omega
      · simp only [List.append_assoc, List.singleton_append]
        congr 1
        split
        · exact (indicesFrom_succ _ _).symm
        · exact (indicesFrom_succ _ _).symm
    · have hit' : iterator v = false := by
        cases h : iterator v
        · rfl
        · exact absurd h hit
      simp only [hit', Bool.false_eq_true, if_false, List.takeWhile_cons_of_neg,
        not_false_eq_true, List.length_nil, Nat.cast_zero, Int.add_zero, Nat.zero_lt_succ,
        if_true, Nat.zero_add]
      rw [indicesFrom_succ, indicesFrom_zero]

theorem ForEachByte_eq_loop (b : ByteBuf) (iterator : Byte → Bool) (indexes : List Int) :
    b.ForEachByte iterator indexes
      = (forEachLoop iterator b.buf
          (resolvedEnd b indexes - resolvedStart b indexes).toNat
          (resolvedStart b indexes) 0 []).map (fun r => (b, r.1, r.2)) := by
  have core : ∀ start e0 : Int,
      (if start > e0 then some (b, (0 : Int), ([] : List Int))
        else
          match forEachLoop iterator b.buf
            ((if e0 > b.capacity then b.capacity else e0) - start).toNat start 0 [] with
          | none => none
          | some (count, visited) => some (b, count, visited))
        = (forEachLoop iterator b.buf (min e0 b.capacity - start).toNat start 0 []).map
            (fun r => (b, r.1, r.2)) := by
    intro start e0
    have hmin : (if e0 > b.capacity then b.capacity else e0) = min e0 b.capacity := by
      by_cases h : e0 > b.capacity
      · rw [if_pos h, min_eq_right (le_of_lt h)]
      · rw [if_neg h, min_eq_left (by omega)]
    by_cases h : start > e0
    · have hz : (min e0 b.capacity - start).toNat = 0 := by
        have := min_le_left e0 b.capacity
        omega
      rw [if_pos h, hz]
      rfl
    · rw [if_neg h, hmin]
      cases forEachLoop iterator b.buf (min e0 b.capacity - start).toNat start 0 [] with
      | none => rfl
      | some r => rfl
  match indexes with
  | [] => exact core b.readerIndex b.writerIndex
  | [s] => exact core s b.writerIndex
  | s :: e :: rest =>
    have hmin : (if e < b.writerIndex then e else b.writerIndex) = min e b.writerIndex := by
      by_cases h : e < b.writerIndex
      · rw [if_pos h, min_eq_left (le_of_lt h)]
      · rw [if_neg h, min_eq_right (by omega)]
    have hl1 : (s :: e :: rest).length ≥ 1 := by simp
    have hl2 : (s :: e :: rest).length ≥ 2 := by simp
    unfold ByteBuf.ForEachByte resolvedStart resolvedEnd
    simp only [hl1, hl2, true_and, if_true, List.getD_cons_zero, List.getD_cons_succ, hmin]
    exact core s (min e b.writerIndex)

theorem indicesFrom_length (start : Int) (m : Nat) : (indicesFrom start m).length = m := by
  unfold indicesFrom
  simp

theorem indicesFrom_getElem? (start : Int) (m j : Nat) (h : j < m) :
    (indicesFrom start m)[j]? = some (start + (j : Int)) := by
  unfold indicesFrom
  simp [List.getElem?_map, List.getElem?_range h]

theorem takeWhile_length_spec (p : Byte → Bool) :
    ∀ l : List Byte, (l.takeWhile p).length ≤ l.length ∧
      (∀ j : Nat, j < (l.takeWhile p).length → ∃ v : Byte, l[j]? = some v ∧ p v = true) ∧
      ((l.takeWhile p).length < l.length →
        ∃ v : Byte, l[(l.takeWhile p).length]? = some v ∧ p v = false) := by
  intro l
  induction l with
  | nil => simp
  | cons x xs ih =>
    by_cases hx : p x = true
    · rw [List.takeWhile_cons_of_pos hx]
      obtain ⟨h1, h2, h3⟩ := ih
      refine ⟨by simp only [List.length_cons]; omega, ?_, ?_⟩
      · intro j hj
        cases j with
        | zero => exact ⟨x, by simp, hx⟩
        | succ j =>
          simp only [List.length_cons] at hj
          simpa using h2 j (by omega)
      · intro h
        simp only [List.length_cons] at h
        simpa using h3 (by omega)
    · rw [List.takeWhile_cons_of_neg hx]
      refine ⟨by simp, fun j hj => absurd hj (by simp), fun _ => ⟨x, by simp, ?_⟩⟩
      cases h : p x
      · rfl
      · exact absurd h hx

/-- C14: on a buffer with `0 <= readerIndex <= writerIndex <= len(storage)` and
`writerIndex <= capacity`, with a visitor that never signals stop,
`ForEachByte(visitor)` without bounds returns `writerIndex - readerIndex` and
leaves the buffer as it was; the visitor is called on the indices
`readerIndex, ..., writerIndex - 1`, each once and in ascending order, that is
on the bytes of the readable region and on no other. -/
theorem ForEachByte_visits_readable (b : ByteBuf) (iterator : Byte → Bool)
    (hit : ∀ v : Byte, iterator v = true)
    (hr0 : 0 ≤ b.readerIndex) (hrw : b.readerIndex ≤ b.writerIndex)
    (hwl : b.writerIndex ≤ (b.buf.length : Int)) (hwc : b.writerIndex ≤ b.capacity)
    (hw : b.writerIndex ≤ MaxInt) :
    b.ForEachByte iterator []
        = some (b, b.writerIndex - b.readerIndex,
            indicesFrom b.readerIndex (b.writerIndex - b.readerIndex).toNat) ∧
      (indicesFrom b.readerIndex (b.writerIndex - b.readerIndex).toNat).length
        = (b.writerIndex - b.readerIndex).toNat ∧
      (∀ j : Nat, j < (b.writerIndex - b.readerIndex).toNat →
        (indicesFrom b.readerIndex (b.writerIndex - b.readerIndex).toNat)[j]?
            = some (b.readerIndex + (j : Int)) ∧
          indexAt b.buf (b.readerIndex + (j : Int)) = b.readable[j]? ∧
          j < b.readable.length) := by
  have hn : ((b.writerIndex - b.readerIndex).toNat : Int) = b.writerIndex - b.readerIndex := by
    omega
  have hseg : ((b.buf.drop b.readerIndex.toNat).take
      (b.writerIndex - b.readerIndex).toNat).length = (b.writerIndex - b.readerIndex).toNat := by
    simp only [List.length_take, List.length_drop]
    omega
  have htw : ((b.buf.drop b.readerIndex.toNat).take
      (b.writerIndex - b.readerIndex).toNat).takeWhile iterator
      = (b.buf.drop b.readerIndex.toNat).take (b.writerIndex - b.readerIndex).toNat :=
    List.takeWhile_eq_self_iff.mpr (fun v _ => hit v)
  refine ⟨?_, indicesFrom_length _ _, ?_⟩
  · rw [ForEachByte_eq_loop]
    have hs : resolvedStart b [] = b.readerIndex := rfl
    have he : resolvedEnd b [] = b.writerIndex := min_eq_left hwc
    rw [hs, he, forEachLoop_spec iterator b.buf _ b.readerIndex 0 [] hr0 (by omega) (by omega)
      (by decide) (by omega), htw, hseg]
    simp only [lt_self_iff_false, if_false, Option.map_some', List.nil_append, hn]
    simp
  · intro j hj
    refine ⟨indicesFrom_getElem? _ _ _ hj, ?_, ?_⟩
    · unfold indexAt ByteBuf.readable
      rw [if_pos ⟨by omega, by omega⟩, List.getElem?_take_of_lt hj, List.getElem?_drop]
      congr 1
      omega
    · unfold ByteBuf.readable
      rw [hseg]
      exact hj

/-- C14 on the buffer `[1, 2, 3, 4]` with `readerIndex = 1` and
`writerIndex = 3`. -/
theorem ForEachByte_visits_readable_witness :
    (ByteBuf.mk [1, 2, 3, 4] 4 1 0 3 0).ForEachByte (fun _ => true) []
      = some (ByteBuf.mk [1, 2, 3, 4] 4 1 0 3 0, 2, [1, 2]) :=
  (ForEachByte_visits_readable (ByteBuf.mk [1, 2, 3, 4] 4 1 0 3 0) (fun _ => true)
    (fun _ => rfl) (by decide) (by decide) (by decide) (by decide) (by decide)).1

/-- C15: with resolved bounds `0 <= start <= end <= len(storage)`,
`ForEachByte` returns, leaving the buffer as it was, the length `k` of the
longest prefix of `storage[start:end]` on which the visitor returns true: the
first `k` bytes are accepted and, when `k < end - start`, the byte at
`start + k` is rejected. The visitor is called on the indices `start, ...,
start + k - 1` and, when `k < end - start`, on `start + k`, and on nothing
else. -/
theorem ForEachByte_stops_at_first_rejected (b : ByteBuf) (iterator : Byte → Bool)
    (indexes : List Int)
    (h0 : 0 ≤ resolvedStart b indexes)
    (h1 : resolvedStart b indexes ≤ resolvedEnd b indexes)
    (h2 : resolvedEnd b indexes ≤ (b.buf.length : Int))
    (h3 : resolvedEnd b indexes ≤ MaxInt) :
    ∃ k : Nat,
      k = (((b.buf.drop (resolvedStart b indexes).toNat).take
        (resolvedEnd b indexes - resolvedStart b indexes).toNat).takeWhile iterator).length ∧
      b.ForEachByte iterator indexes
        = some (b, (k : Int), indicesFrom (resolvedStart b indexes)
            (if k < (resolvedEnd b indexes - resolvedStart b indexes).toNat
              then k + 1 else k)) ∧
      k ≤ (resolvedEnd b indexes - resolvedStart b indexes).toNat ∧
      (∀ j : Nat, j < k →
        ∃ v : Byte, indexAt b.buf (resolvedStart b indexes + (j : Int)) = some v ∧
          iterator v = true) ∧
      (k < (resolvedEnd b indexes - resolvedStart b indexes).toNat →
        ∃ v : Byte, indexAt b.buf (resolvedStart b indexes + (k : Int)) = some v ∧
          iterator v = false) := by
  generalize hs : resolvedStart b indexes = start at *
  generalize he : resolvedEnd b indexes = end_ at *
  have hseg : ((b.buf.drop start.toNat).take (end_ - start).toNat).length
      = (end_ - start).toNat := by
    simp only [List.length_take, List.length_drop]
    omega
  obtain ⟨t1, t2, t3⟩ :=
    takeWhile_length_spec iterator ((b.buf.drop start.toNat).take (end_ - start).toNat)
  rw [hseg] at t1 t3
  have hidx : ∀ j : Nat, j < (end_ - start).toNat →
      indexAt b.buf (start + (j : Int))
        = ((b.buf.drop start.toNat).take (end_ - start).toNat)[j]? := by
    intro j hj
    unfold indexAt
    rw [if_pos ⟨by omega, by omega⟩, List.getElem?_take_of_lt hj, List.getElem?_drop]
    congr 1
    omega
  refine ⟨_, rfl, ?_, t1, ?_, ?_⟩
  · rw [ForEachByte_eq_loop, hs, he, forEachLoop_spec iterator b.buf _ start 0 [] h0
      (by omega) (by omega) (by decide) (by omega)]
    simp
  · intro j hj
    rw [hidx j (by omega)]
    exact t2 j hj
  · intro hk
    rw [hidx _ hk]
    exact t3 hk

/-- C15 on the buffer `[1, 2, 3, 4]` with the bounds `(1, 9)` and a visitor
that accepts the bytes below 3: the byte 2 is counted, the byte 3 is visited
and rejected, the byte 4 is not visited. -/
theorem ForEachByte_stops_at_first_rejected_witness :
    (ByteBuf.mk [1, 2, 3, 4] 4 0 0 4 0).ForEachByte (fun v => decide (v.val < 3)) [1, 9]
      = some (ByteBuf.mk [1, 2, 3, 4] 4 0 0 4 0, 1, [1, 2]) := by
  obtain ⟨k, hk, h, _⟩ :=
    ForEachByte_stops_at_first_rejected (ByteBuf.mk [1, 2, 3, 4] 4 0 0 4 0)
      (fun v => decide (v.val < 3)) [1, 9] (by decide) (by decide) (by decide) (by decide)
  rw [h]
  have hk1 : k = 1 := by rw [hk]; decide
  subst hk1
  decide

theorem forEachLoop_count_bounds (iterator : Byte → Bool) (buf : List Byte) :
    ∀ (n : Nat) (start count : Int) (visited : List Int) (r : Int × List Int),
      forEachLoop iterator buf n start count visited = some r →
      MinInt ≤ count → count + (n : Int) ≤ MaxInt →
      count ≤ r.1 ∧ r.1 ≤ count + (n : Int) := by
  intro n
  induction n with
  | zero =>
    intro start count visited r h _ _
    unfold forEachLoop at h
    cases h
    simp
  | succ n ih =>
    intro start count visited r h h1 h2
    have hc : addInt count 1 = count + 1 :=
      wrapInt_of_range _ (by omega) (by omega)
    unfold forEachLoop at h
    split at h
    · cases h
    · split at h
      · rw [hc] at h
        have := ih _ _ _ r h (by omega) (by push_cast at h2 ⊢; omega)
        push_cast
        omega
      · cases h
        push_cast
        omega

theorem forEachLoop_start_nonneg (iterator : Byte → Bool) (buf : List Byte) (n : Nat)
    (start count : Int) (visited : List Int) (r : Int × List Int)
    (h : forEachLoop iterator buf (n + 1) start count visited = some r) :
    0 ≤ start ∧ start < (buf.length : Int) := by
  unfold forEachLoop at h
  by_cases hs : 0 ≤ start ∧ start < (buf.length : Int)
  · exact hs
  · have : indexAt buf start = none := by
      unfold indexAt
      rw [if_neg hs]
    rw [this] at h
    cases h

theorem resolvedEnd_le (b : ByteBuf) (indexes : List Int) :
    resolvedEnd b indexes ≤ b.writerIndex ∧ resolvedEnd b indexes ≤ b.capacity := by
  unfold resolvedEnd
  split
  · exact ⟨le_trans (min_le_left _ _) (min_le_right _ _), min_le_right _ _⟩
  · exact ⟨min_le_left _ _, min_le_right _ _⟩

theorem ForEachByte_count_le (b : ByteBuf) (iterator : Byte → Bool) (indexes : List Int)
    (hcap : b.capacity ≤ MaxInt) (r : ByteBuf × Int × List Int)
    (h : b.ForEachByte iterator indexes = some r) :
    0 ≤ r.2.1 ∧ r.2.1 ≤ max 0 (resolvedEnd b indexes - resolvedStart b indexes) := by
  rw [ForEachByte_eq_loop] at h
  obtain ⟨_, hec⟩ := resolvedEnd_le b indexes
  cases hl : forEachLoop iterator b.buf
      (resolvedEnd b indexes - resolvedStart b indexes).toNat
      (resolvedStart b indexes) 0 [] with
  | none =>
    rw [hl] at h
    cases h
  | some q =>
    rw [hl] at h
    cases h
    show 0 ≤ q.1 ∧ q.1 ≤ max 0 (resolvedEnd b indexes - resolvedStart b indexes)
    cases hn : (resolvedEnd b indexes - resolvedStart b indexes).toNat with
    | zero =>
      rw [hn] at hl
      unfold forEachLoop at hl
      cases hl
      exact ⟨le_refl _, le_max_left _ _⟩
    | succ n =>
      rw [hn] at hl
      have hs := forEachLoop_start_nonneg iterator b.buf n _ _ _ q hl
      have hb := forEachLoop_count_bounds iterator b.buf (n + 1) _ _ _ q hl (by decide)
        (by push_cast; omega)
      refine ⟨by omega, le_trans ?_ (le_max_right _ _)⟩
      push_cast at hb
      omega

/-- C16, as stated, fails: on the buffer `[1, 2, 3, 4]` with `writerIndex = 4`
the call `ForEachByte(visitor, 5, 2)` returns 0, which exceeds
`min(end, writerIndex) - start = 2 - 5`. -/
theorem ForEachByte_count_exceeds_negative_range :
    (ByteBuf.mk [1, 2, 3, 4] 4 0 0 4 0).ForEachByte (fun _ => true) [5, 2]
        = some (ByteBuf.mk [1, 2, 3, 4] 4 0 0 4 0, 0, []) ∧
      ¬ ((0 : Int) ≤ min 2 (ByteBuf.mk [1, 2, 3, 4] 4 0 0 4 0).writerIndex - 5) := by
  decide

/-- C16, amended: `ForEachByte` iterates from the resolved start (the first
explicit bound if given, else `readerIndex`) while the index is below the
resolved end (the second explicit bound if given and smaller than
`writerIndex`, else `writerIndex`; then clamped to `capacity`). The resolved end
never exceeds `writerIndex`, `capacity` or an explicit end; an explicit end
`e >= writerIndex` gives the outcome of the call without it; if the resolved
start exceeds the resolved end the visitor is not called and the result is 0;
and every count returned is between 0 and the size of the resolved range,
`max(0, end - start)`, hence at most `max(0, min(e, writerIndex) - start)`. -/
theorem ForEachByte_bound_resolution (b : ByteBuf) (iterator : Byte → Bool)
    (indexes : List Int) (s e : Int) (rest : List Int) (hcap : b.capacity ≤ MaxInt) :
    b.ForEachByte iterator indexes
        = (forEachLoop iterator b.buf
            (resolvedEnd b indexes - resolvedStart b indexes).toNat
            (resolvedStart b indexes) 0 []).map (fun r => (b, r.1, r.2)) ∧
      resolvedEnd b indexes ≤ b.writerIndex ∧ resolvedEnd b indexes ≤ b.capacity ∧
      resolvedEnd b (s :: e :: rest) ≤ e ∧
      (b.writerIndex ≤ e →
        b.ForEachByte iterator (s :: e :: rest) = b.ForEachByte iterator [s]) ∧
      (resolvedStart b indexes > resolvedEnd b indexes →
        b.ForEachByte iterator indexes = some (b, 0, [])) ∧
      (∀ r : ByteBuf × Int × List Int, b.ForEachByte iterator indexes = some r →
        0 ≤ r.2.1 ∧ r.2.1 ≤ max 0 (resolvedEnd b indexes - resolvedStart b indexes)) ∧
      (∀ r : ByteBuf × Int × List Int, b.ForEachByte iterator (s :: e :: rest) = some r →
        r.2.1 ≤ max 0 (min e b.writerIndex - s)) := by
  obtain ⟨hw, hc⟩ := resolvedEnd_le b indexes
  have he : resolvedEnd b (s :: e :: rest) ≤ min e b.writerIndex := min_le_left _ _
  refine ⟨ForEachByte_eq_loop b iterator indexes, hw, hc,
    le_trans he (min_le_left _ _), ?_, ?_, ForEachByte_count_le b iterator indexes hcap, ?_⟩
  · intro h
    rw [ForEachByte_eq_loop, ForEachByte_eq_loop b iterator [s]]
    have h1 : resolvedEnd b (s :: e :: rest) = resolvedEnd b [s] := by
      show min (min e b.writerIndex) b.capacity = min b.writerIndex b.capacity
      rw [min_eq_right h]
    rw [h1]
    rfl
  · intro h
    rw [ForEachByte_eq_loop]
    have hz : (resolvedEnd b indexes - resolvedStart b indexes).toNat = 0 := by omega
    rw [hz]
    rfl
  · intro r h
    have h1 := (ForEachByte_count_le b iterator (s :: e :: rest) hcap r h).2
    have h2 : resolvedStart b (s :: e :: rest) = s := rfl
    rw [h2] at h1
    refine le_trans h1 (max_le_max (le_refl _) ?_)
    omega

/-- C16, amended, on the buffer `[1, 2, 3, 4]` with `writerIndex = 3`: the
explicit end 9 gives the outcome of the call with the start alone, and an empty
range gives 0. -/
theorem ForEachByte_bound_resolution_witness :
    (ByteBuf.mk [1, 2, 3, 4] 4 0 0 3 0).ForEachByte (fun _ => true) [1, 9]
        = (ByteBuf.mk [1, 2, 3, 4] 4 0 0 3 0).ForEachByte (fun _ => true) [1] ∧
      (ByteBuf.mk [1, 2, 3, 4] 4 0 0 3 0).ForEachByte (fun _ => true) [1]
        = some (ByteBuf.mk [1, 2, 3, 4] 4 0 0 3 0, 2, [1, 2]) ∧
      (ByteBuf.mk [1, 2, 3, 4] 4 0 0 3 0).ForEachByte (fun _ => true) [3, 2]
        = some (ByteBuf.mk [1, 2, 3, 4] 4 0 0 3 0, 0, []) :=
  ⟨(ForEachByte_bound_resolution (ByteBuf.mk [1, 2, 3, 4] 4 0 0 3 0) (fun _ => true)
      [3, 2] 1 9 [] (by decide)).2.2.2.2.1 (by decide),
    by decide,
    (ForEachByte_bound_resolution (ByteBuf.mk [1, 2, 3, 4] 4 0 0 3 0) (fun _ => true)
      [3, 2] 1 9 [] (by decide)).2.2.2.2.2.1 (by decide)⟩

/-- C19, the code at the failing input: on the buffer `[1, 2, 3, 4]` with
`readerIndex = 0` and `writerIndex = capacity = 4`, the call
`ForEachByte(visitor, -1)` reads `storage[-1]`: the index expression panics and
no count is returned. -/
theorem ForEachByte_negative_start_panics :
    (ByteBuf.mk [1, 2, 3, 4] 4 0 0 4 0).ForEachByte (fun _ => true) [-1] = none ∧
      indexAt (ByteBuf.mk [1, 2, 3, 4] 4 0 0 4 0).buf (-1) = none ∧
      resolvedStart (ByteBuf.mk [1, 2, 3, 4] 4 0 0 4 0) [-1] = -1 := by
  decide

theorem ForEachByte_returns_of_nonneg_start (b : ByteBuf) (iterator : Byte → Bool)
    (indexes : List Int) (hcap : b.capacity = (b.buf.length : Int))
    (hmax : b.capacity ≤ MaxInt) (h0 : 0 ≤ resolvedStart b indexes) :
    ∃ r : ByteBuf × Int × List Int, b.ForEachByte iterator indexes = some r := by
  obtain ⟨_, hc⟩ := resolvedEnd_le b indexes
  by_cases h : resolvedStart b indexes ≤ resolvedEnd b indexes
  · rw [ForEachByte_eq_loop, forEachLoop_spec iterator b.buf _ _ 0 [] h0 (by omega) (by omega)
      (by decide) (by omega)]
    exact ⟨_, rfl⟩
  · rw [ForEachByte_eq_loop]
    have hz : (resolvedEnd b indexes - resolvedStart b indexes).toNat = 0 := by omega
    rw [hz]
    exact ⟨_, rfl⟩

/-! ## The cursor invariant and the composition of growth -/

theorem wrapInt_le_MaxInt (x : Int) : wrapInt x ≤ MaxInt := by
  unfold wrapInt MaxInt
  omega

theorem EnsureCapacity_keeps_cursors (c : Int) (b : ByteBuf) (n : Int) (hc : 0 < c)
    (hcm : c ≤ MaxInt) (hcap : 0 ≤ b.capacity) (hn : n ≤ MaxInt) (b1 : ByteBuf)
    (h : b.EnsureCapacity c n = some b1) :
    b.capacity ≤ b1.capacity ∧ b1.readerIndex = b.readerIndex ∧
      b1.writerIndex = b.writerIndex := by
  by_cases hle : n ≤ b.capacity
  · rw [EnsureCapacity_noop c b n hle] at h
    cases h
    exact ⟨le_refl _, rfl, rfl⟩
  · have hn1 : MinInt < n := by unfold MinInt; omega
    obtain ⟨r1, _, _⟩ := roundedCapacity_bounds c n hc
    rw [EnsureCapacity_eq c b n hc hcm hn1 hn, if_neg hle] at h
    split at h
    · cases h
      refine ⟨?_, rfl, rfl⟩
      show b.capacity ≤ roundedCapacity c n
      omega
    · cases h

theorem Index_state (b : ByteBuf) (p : List Byte) (indexes : List Int) (r : ByteBuf × Int)
    (h : b.Index p indexes = some r) : r.1 = b := by
  unfold ByteBuf.Index at h
  split at h
  · split at h
    · split at h
      · cases h
      · cases h
        rfl
    · cases h
      rfl
  · split at h
    · split at h
      · split at h
        · cases h
        · cases h
          rfl
      · cases h
        rfl
    · cases h
      rfl

theorem ForEachByte_state (b : ByteBuf) (iterator : Byte → Bool) (indexes : List Int)
    (r : ByteBuf × Int × List Int) (h : b.ForEachByte iterator indexes = some r) : r.1 = b := by
  rw [ForEachByte_eq_loop] at h
  cases hl : forEachLoop iterator b.buf
      (resolvedEnd b indexes - resolvedStart b indexes).toNat
      (resolvedStart b indexes) 0 [] with
  | none =>
    rw [hl] at h
    cases h
  | some q =>
    rw [hl] at h
    cases h
    rfl

theorem Copy_eq (b : ByteBuf) : b.Copy = some (b, b) := by
  have hcopy : copy (List.replicate b.buf.length 0) b.buf = b.buf := by
    rw [copy_replicate_of_le _ _ (le_refl _)]
    simp
  have hmake : make (b.buf.length : Int) = some (List.replicate b.buf.length 0) := by
    unfold make
    rw [if_neg (by omega)]
    simp
  unfold ByteBuf.Copy
  rw [hmake]
  simp only [hcopy]

/-- C17: the cursor invariant `0 <= readerIndex <= writerIndex <= capacity` is
preserved. If it holds of `b` (with `capacity` and the arguments in the range
of `int` and a positive chunk size), it holds of the state every returning call
of `EnsureCapacity(size)`, `EnsureWritable(size)`, `DiscardReadBytes()`, `Index`
and `ForEachByte` leaves, of the state after `SkipBytes(length)` with
`0 <= length <= writerIndex - readerIndex`, and of both the receiver and the
result of `Copy()`; `Copy` always returns, and `DiscardReadBytes` returns when
`writerIndex <= len(storage)`. -/
theorem CursorInv_preserved (chunkSize : Int) (b : ByteBuf) (size length : Int)
    (p : List Byte) (iterator : Byte → Bool) (indexes : List Int)
    (hinv : b.CursorInv) (hc : 0 < chunkSize) (hcm : chunkSize ≤ MaxInt)
    (hcap : b.capacity ≤ MaxInt) (hs : size ≤ MaxInt) :
    (∀ b1 : ByteBuf, b.EnsureCapacity chunkSize size = some b1 → b1.CursorInv) ∧
      (∀ b1 : ByteBuf, b.EnsureWritable chunkSize size = some b1 → b1.CursorInv) ∧
      (∀ b1 : ByteBuf, b.DiscardReadBytes = some b1 → b1.CursorInv) ∧
      (b.writerIndex ≤ (b.buf.length : Int) →
        ∃ b1 : ByteBuf, b.DiscardReadBytes = some b1 ∧ b1.CursorInv) ∧
      (0 ≤ length → length ≤ b.writerIndex - b.readerIndex →
        (b.SkipBytes length).CursorInv) ∧
      (∀ r : ByteBuf × Int, b.Index p indexes = some r → r.1.CursorInv) ∧
      (∀ r : ByteBuf × Int × List Int, b.ForEachByte iterator indexes = some r →
        r.1.CursorInv) ∧
      (∃ r : ByteBuf × ByteBuf, b.Copy = some r ∧ r.1.CursorInv ∧ r.2.CursorInv) := by
  obtain ⟨i1, i2, i3⟩ := hinv
  have hgrow : ∀ (n : Int) (b1 : ByteBuf), n ≤ MaxInt →
      b.EnsureCapacity chunkSize n = some b1 → b1.CursorInv := by
    intro n b1 hn h
    obtain ⟨h1, h2, h3⟩ :=
      EnsureCapacity_keeps_cursors chunkSize b n hc hcm (by omega) hn b1 h
    unfold ByteBuf.CursorInv
    rw [h2, h3]
    exact ⟨i1, i2, by omega⟩
  have hsub : subInt b.writerIndex b.readerIndex = b.writerIndex - b.readerIndex :=
    wrapInt_of_range _ (by unfold MinInt; omega) (by omega)
  have hdisc : ∀ b1 : ByteBuf, b.DiscardReadBytes = some b1 → b1.CursorInv := by
    intro b1 h
    unfold ByteBuf.DiscardReadBytes at h
    split at h
    · cases h
    · cases h
      unfold ByteBuf.CursorInv
      simp only [hsub]
      exact ⟨le_refl _, by omega, by omega⟩
  refine ⟨fun b1 h => hgrow size b1 hs h, ?_, hdisc, ?_, ?_, ?_, ?_, ?_⟩
  · intro b1 h
    exact hgrow _ b1 (wrapInt_le_MaxInt _) h
  · intro hwl
    have hsl : sliceFrom b.buf b.readerIndex = some (b.buf.drop b.readerIndex.toNat) := by
      unfold sliceFrom
      exact if_pos ⟨i1, by omega⟩
    have he : b.DiscardReadBytes = some { b with
        buf := b.buf.drop b.readerIndex.toNat
        writerIndex := subInt b.writerIndex b.readerIndex
        readerIndex := 0 } := by
      unfold ByteBuf.DiscardReadBytes
      rw [hsl]
    exact ⟨_, he, hdisc _ he⟩
  · intro h0 h1
    have hadd : addInt b.readerIndex length = b.readerIndex + length :=
      wrapInt_of_range _ (by unfold MinInt; omega) (by omega)
    unfold ByteBuf.SkipBytes ByteBuf.CursorInv
    simp only [hadd]
    exact ⟨by omega, by omega, i3⟩
  · intro r h
    rw [Index_state b p indexes r h]
    exact ⟨i1, i2, i3⟩
  · intro r h
    rw [ForEachByte_state b iterator indexes r h]
    exact ⟨i1, i2, i3⟩
  · exact ⟨(b, b), Copy_eq b, ⟨i1, i2, i3⟩, ⟨i1, i2, i3⟩⟩

/-- C17 on the buffer `[1, 2, 3, 4]` with `readerIndex = 1`, `writerIndex = 3`:
the invariant holds after `DiscardReadBytes` and after `SkipBytes(2)`. -/
theorem CursorInv_preserved_witness :
    (∃ b1 : ByteBuf, (ByteBuf.mk [1, 2, 3, 4] 4 1 0 3 0).DiscardReadBytes = some b1 ∧
        b1.CursorInv) ∧
      ((ByteBuf.mk [1, 2, 3, 4] 4 1 0 3 0).SkipBytes 2).CursorInv :=
  ⟨(CursorInv_preserved 4 (ByteBuf.mk [1, 2, 3, 4] 4 1 0 3 0) 9 2 [] (fun _ => true) []
      (by unfold ByteBuf.CursorInv; decide) (by decide) (by decide) (by decide)
      (by decide)).2.2.2.1 (by decide),
    (CursorInv_preserved 4 (ByteBuf.mk [1, 2, 3, 4] 4 1 0 3 0) 9 2 [] (fun _ => true) []
      (by unfold ByteBuf.CursorInv; decide) (by decide) (by decide) (by decide)
      (by decide)).2.2.2.2.1 (by decide) (by decide)⟩

set_option maxRecDepth 100000 in
/-- C18, the code at the failing input. With chunk size 4: a new buffer,
`WriteBytes([1 2 3 4])`, `SkipBytes(2)`, `DiscardReadBytes()` leave the storage
`[3 4]` with `capacity` still 4; then `Index(p, 3)` passes the guard
`0 < 3 < capacity` and slices `storage[3:]`, and `Index(p, 1, 3)` passes its
guard and slices `storage[1:3]`: both slice expressions are out of range and
panic. With the default chunk size the same calls leave 1022 bytes of storage
with `capacity` 1024, and `Index(p, 1023)` panics. -/
theorem Index_panics_after_DiscardReadBytes :
    NewByteBuf.WriteBytes 4 [1, 2, 3, 4] = some (ByteBuf.mk [1, 2, 3, 4] 4 0 0 4 0) ∧
      ((ByteBuf.mk [1, 2, 3, 4] 4 0 0 4 0).SkipBytes 2).DiscardReadBytes
        = some (ByteBuf.mk [3, 4] 4 0 0 2 0) ∧
      (ByteBuf.mk [3, 4] 4 0 0 2 0).Index [4] [3] = none ∧
      (ByteBuf.mk [3, 4] 4 0 0 2 0).Index [4] [1, 3] = none ∧
      sliceFrom (ByteBuf.mk [3, 4] 4 0 0 2 0).buf 3 = none ∧
      sliceRange (ByteBuf.mk [3, 4] 4 0 0 2 0).buf 1 3 = none ∧
      (((NewByteBuf.WriteBytes ChunkSize [1, 2, 3, 4]).bind
          (fun b1 => (b1.SkipBytes 2).DiscardReadBytes)).map
          (fun b2 => (b2.buf.length, b2.capacity, b2.Index [4] [1023])))
        = some (1022, 1024, none) := by
  decide

theorem roundedCapacity_mono (c x y : Int) (hc : 0 < c) (hx : 1 ≤ x) (hxy : x ≤ y) :
    roundedCapacity c x ≤ roundedCapacity c y := by
  obtain ⟨_, _, hmin⟩ := roundedCapacity_smallest c x hc hx
  obtain ⟨hd, hge, _⟩ := roundedCapacity_smallest c y hc (by omega)
  exact hmin _ hd (by omega)

theorem roundedCapacity_eq_of_le (c x y : Int) (hc : 0 < c) (hx : 1 ≤ x) (hxy : x ≤ y)
    (hy : y ≤ roundedCapacity c x) : roundedCapacity c y = roundedCapacity c x := by
  obtain ⟨hd, _, _⟩ := roundedCapacity_smallest c x hc hx
  obtain ⟨_, _, hmin⟩ := roundedCapacity_smallest c y hc (by omega)
  exact le_antisymm (hmin _ hd hy) (roundedCapacity_mono c x y hc hx hxy)

theorem copy_replicate_twice (k1 k2 : Nat) (src : List Byte) (h1 : src.length ≤ k1)
    (h2 : k1 ≤ k2) :
    copy (List.replicate k2 0) (copy (List.replicate k1 0) src)
      = copy (List.replicate k2 0) src := by
  have hl : (copy (List.replicate k1 0) src).length ≤ k2 := by
    rw [length_copy_replicate]
    exact h2
  rw [copy_replicate_of_le k2 _ hl, length_copy_replicate, copy_replicate_of_le k1 _ h1,
    copy_replicate_of_le k2 _ (le_trans h1 h2), List.append_assoc,
    List.append_replicate_replicate]
  congr 2
  omega

theorem EnsureCapacity_then (c : Int) (b : ByteBuf) (x y : Int) (hc : 0 < c)
    (hcm : c ≤ MaxInt) (hlen : (b.buf.length : Int) ≤ b.capacity)
    (hx : x ≤ MaxInt) (hy : y ≤ MaxInt) :
    (b.EnsureCapacity c x).bind (fun b1 => b1.EnsureCapacity c y)
      = b.EnsureCapacity c (max x y) := by
  by_cases hxc : x ≤ b.capacity
  · rw [EnsureCapacity_noop c b x hxc]
    show b.EnsureCapacity c y = _
    by_cases hyx : y ≤ x
    · rw [max_eq_left hyx, EnsureCapacity_noop c b x hxc,
        EnsureCapacity_noop c b y (by omega)]
    · rw [max_eq_right (by omega)]
  · have hx1 : MinInt < x := by unfold MinInt; omega
    obtain ⟨rx1, _, _⟩ := roundedCapacity_bounds c x hc
    rw [EnsureCapacity_eq c b x hc hcm hx1 hx, if_neg hxc]
    by_cases hfx : roundedCapacity c x ≤ MaxInt
    · rw [if_pos ⟨by omega, hfx⟩]
      show ByteBuf.EnsureCapacity c _ y = _
      by_cases hyr : y ≤ roundedCapacity c x
      · rw [EnsureCapacity_noop c _ y hyr]
        by_cases hyx : y ≤ x
        · rw [max_eq_left hyx, EnsureCapacity_eq c b x hc hcm hx1 hx, if_neg hxc,
            if_pos ⟨by omega, hfx⟩]
        · have hy1 : MinInt < y := by omega
          have hr := roundedCapacity_eq_of_le c x y hc (by omega) (by omega) hyr
          rw [max_eq_right (by omega), EnsureCapacity_eq c b y hc hcm hy1 hy,
            if_neg (by omega), hr, if_pos ⟨by omega, hfx⟩]
      · have hy1 : MinInt < y := by omega
        obtain ⟨ry1, _, _⟩ := roundedCapacity_bounds c y hc
        have hmono := roundedCapacity_mono c x y hc (by omega) (by omega)
        have e1 := EnsureCapacity_eq c ({ b with
          buf := copy (List.replicate (roundedCapacity c x).toNat 0) b.buf
          capacity := roundedCapacity c x } : ByteBuf) y hc hcm hy1 hy
        dsimp only at e1
        rw [if_neg hyr] at e1
        have e2 := EnsureCapacity_eq c b y hc hcm hy1 hy
        rw [if_neg (show ¬ y ≤ b.capacity by omega)] at e2
        rw [max_eq_right (by omega), e1, e2]
        by_cases hfy : 0 ≤ roundedCapacity c y ∧ roundedCapacity c y ≤ MaxInt
        · rw [if_pos hfy, if_pos hfy]
          simp only [Option.some.injEq, ByteBuf.mk.injEq, and_true, true_and]
          exact copy_replicate_twice _ _ _ (by omega) (by omega)
        · rw [if_neg hfy, if_neg hfy]
    · rw [if_neg (by omega)]
      have hm : x ≤ max x y := le_max_left _ _
      have hm1 : MinInt < max x y := by omega
      have hmono := roundedCapacity_mono c x (max x y) hc (by omega) hm
      rw [EnsureCapacity_eq c b (max x y) hc hcm hm1 (max_le hx hy), if_neg (by omega),
        if_neg (by omega)]
      rfl

/-- C20: successive `EnsureCapacity` calls compose to a single call with the
maximum. For a positive chunk size, a buffer whose storage is no longer than its
capacity and sizes `x`, `y`, the outcome (state or panic) of
`EnsureCapacity(x)` followed by `EnsureCapacity(y)` is the outcome of
`EnsureCapacity(max(x, y))`; hence the two calls commute; and the capacity
after a returning call is never below the capacity before. -/
theorem EnsureCapacity_compose_max (chunkSize : Int) (b : ByteBuf) (x y : Int)
    (hc : 0 < chunkSize) (hcm : chunkSize ≤ MaxInt)
    (hlen : (b.buf.length : Int) ≤ b.capacity) (hx : x ≤ MaxInt) (hy : y ≤ MaxInt) :
    (b.EnsureCapacity chunkSize x).bind (fun b1 => b1.EnsureCapacity chunkSize y)
        = b.EnsureCapacity chunkSize (max x y) ∧
      (b.EnsureCapacity chunkSize x).bind (fun b1 => b1.EnsureCapacity chunkSize y)
        = (b.EnsureCapacity chunkSize y).bind (fun b1 => b1.EnsureCapacity chunkSize x) ∧
      (∀ b1 : ByteBuf, b.EnsureCapacity chunkSize x = some b1 → b.capacity ≤ b1.capacity) := by
  refine ⟨EnsureCapacity_then chunkSize b x y hc hcm hlen hx hy, ?_, ?_⟩
  · rw [EnsureCapacity_then chunkSize b x y hc hcm hlen hx hy,
      EnsureCapacity_then chunkSize b y x hc hcm hlen hy hx, max_comm]
  · intro b1 h
    exact (EnsureCapacity_keeps_cursors chunkSize b x hc hcm (by omega) hx b1 h).1

/-- C20 at the zero-value buffer with the sizes 5 and 1025: either order gives
the state of `EnsureCapacity(1025)`, which returns. -/
theorem EnsureCapacity_compose_max_witness :
    (ByteBuf.zero.EnsureCapacity ChunkSize 1025).isSome = true ∧
      (ByteBuf.zero.EnsureCapacity ChunkSize 5).bind
          (fun b1 => b1.EnsureCapacity ChunkSize 1025)
        = ByteBuf.zero.EnsureCapacity ChunkSize 1025 ∧
      (ByteBuf.zero.EnsureCapacity ChunkSize 1025).bind
          (fun b1 => b1.EnsureCapacity ChunkSize 5)
        = ByteBuf.zero.EnsureCapacity ChunkSize 1025 :=
  ⟨rfl,
    (EnsureCapacity_compose_max ChunkSize ByteBuf.zero 5 1025 (by decide) (by decide)
      (by decide) (by decide) (by decide)).1,
    (EnsureCapacity_compose_max ChunkSize ByteBuf.zero 1025 5 (by decide) (by decide)
      (by decide) (by decide) (by decide)).1⟩

end bytebuf
